import Mathlib

/-!
Verification of the sparse-merkle-tree proof subsystem.

This file gives a shallow embedding (in Lean 4) of the repository's
`src/key.rs` and `src/merkle_proof.rs`:

* `TreeKey<N>` is embedded as a `List Nat` of length `N` whose elements are
  byte values; bit/byte arithmetic follows `key.rs` exactly.
* `MerkleProof::compute_root` / `compile` are embedded as a fuel-indexed
  recursion over the same `BTreeMap`-style priority queue (modelled as a
  strictly sorted association list popped at its head).
* `CompiledMerkleProof::compute_root` (the stack VM) is embedded as a
  recursion over the program byte list.
* Rust panics reachable on malformed external input (`expect(..)`,
  out-of-bounds indexing / slicing) are modelled by an explicit
  `SmtError.panicked` outcome; `debug_assert!` is a release-mode no-op and is
  modelled as such.

The hash primitive and the `merge`/`hash_leaf` rules live outside `src/`
(crate modules `merge.rs` / `traits.rs` are not part of the sources); they
are modelled from the spec, with the hasher kept as an arbitrary function
parameter `hashH`.
-/

namespace SMT

/-- Error outcomes of the proof subsystem.  The first seven constructors
mirror the crate's `Error` enum variants used by `merkle_proof.rs`;
`panicked` models a Rust panic (from `expect`, slice indexing, or
out-of-bounds array indexing) reachable on malformed input. -/
inductive SmtError where
  | emptyKeys : SmtError
  | incorrectNumberOfLeaves (expected actual : Nat) : SmtError
  | corruptedProof : SmtError
  | corruptedStack : SmtError
  | nonSiblings : SmtError
  | invalidCode (code : Nat) : SmtError
  | nonMergableRange : SmtError
  | panicked (msg : String) : SmtError
  deriving Repr, DecidableEq

/-- Result type of fallible operations, as in the crate's `Result<T>`. -/
abbrev Res (α : Type) := Except SmtError α

/-- A key is a byte array of length `N`, embedded as a list of byte values
(head of the list is byte index `0`, as in the Rust `[u8; N]`). -/
abbrev TreeKey := List Nat

/-- The all-zero key of length `n` (`TreeKey::zero`). -/
def zeroKey (n : Nat) : TreeKey := List.replicate n 0

/-- Bit `i` of a key (`TreeKey::get_bit`): bit position `i % 8` of byte
`N - 1 - i / 8`.  Faithful to the source for `i < 8 * N`; for larger `i` the
Rust code panics (index out of bounds), which call sites reachable with such
an `i` model explicitly via `SmtError.panicked`. -/
def get_bit (k : TreeKey) (i : Nat) : Bool :=
  Nat.testBit (k.getD (k.length - 1 - i / 8) 0) (i % 8)

/-- Set bit `i` of a key (`TreeKey::set_bit`).  Same domain remark as for
`get_bit`. -/
def set_bit (k : TreeKey) (i : Nat) : TreeKey :=
  let p := k.length - 1 - i / 8
  k.set p (k.getD p 0 ||| (1 <<< (i % 8)))

/-- The list of naturals `a, a+1, ..., b-1`. -/
def natRange (a b : Nat) : List Nat := (List.range (b - a)).map (a + ·)

/-- Copy, into `t`, every bit of `src` whose index is listed in `idxs`
(the bit-copy loop at the end of `TreeKey::copy_bits`). -/
def setBitsFrom (src : List Nat) (idxs : List Nat) (t : List Nat) : List Nat :=
  idxs.foldl (fun acc i => if get_bit src i then set_bit acc i else acc) t

/-- Body of `TreeKey::copy_bits` after range resolution: byte-wise copy of
the whole bytes covered by `[s, e)` followed by the bit-wise copy of the two
partial edges, exactly as in the source. -/
def copyBitsBody (k : TreeKey) (s e : Nat) : TreeKey :=
  let n := k.length
  let end_byte := n - s / 8 - (if s % 8 ≠ 0 then 1 else 0)
  let start_byte := n - e / 8
  let target := (List.range n).map (fun j =>
    if start_byte < n ∧ start_byte ≤ end_byte ∧ start_byte ≤ j ∧ j < end_byte
    then k.getD j 0 else 0)
  setBitsFrom k
    (natRange s (min ((n - end_byte) * 8) e) ++ natRange (max ((n - start_byte) * 8) s) e)
    target

/-- `TreeKey::copy_bits` instantiated at a half-open range `s..e`
(inclusive start, exclusive end).  A start at or beyond `8N` returns the
zero key; an end beyond `8N` is clamped; an end below the start panics. -/
def copy_bits (k : TreeKey) (s e : Nat) : Res TreeKey :=
  if 8 * k.length ≤ s then .ok (zeroKey k.length)
  else if min e (8 * k.length) < s then .error (.panicked "end less than start")
  else .ok (copyBitsBody k s (min e (8 * k.length)))

/-- `TreeKey::copy_bits` instantiated at an unbounded-end range `s..`
(as used by `parent_path` and by the walk/VM).  Here the resolved end is
`8N`, so the end-below-start panic is unreachable and the function is
total. -/
def copy_bits_from (k : TreeKey) (s : Nat) : TreeKey :=
  if 8 * k.length ≤ s then zeroKey k.length
  else copyBitsBody k s (8 * k.length)

/-- `TreeKey::parent_path`: zero bits `[0, h+1)`, keep bits `[h+1, 8N)`.
(The Rust `checked_add` guard fires only at `usize::MAX`, where
`copy_bits_from` returns the zero key as well, since `2^64 > 8N`.) -/
def parent_path (k : TreeKey) (h : Nat) : TreeKey := copy_bits_from k (h + 1)

/-- Descending scan of `TreeKey::fork_height`: first bit index below `m`
where the two keys differ, else `0`. -/
def forkAux (a b : TreeKey) : Nat → Nat
  | 0 => 0
  | h + 1 => if get_bit a h ≠ get_bit b h then h else forkAux a b h

/-- `TreeKey::fork_height`: the highest bit index at which the two keys
differ, `0` for equal keys. -/
def fork_height (a b : TreeKey) : Nat := forkAux a b (8 * a.length)

/-! ### Bit-level lemmas about the key operations -/

lemma length_set_bit (k : TreeKey) (i : Nat) : (set_bit k i).length = k.length := by
  simp [set_bit]

lemma getD_set_self (l : List Nat) (p v : Nat) (h : p < l.length) :
    (l.set p v).getD p 0 = v := by
  simp [List.getD_eq_getElem?_getD, List.getElem?_set_self h]

lemma getD_set_ne (l : List Nat) (p q v : Nat) (h : p ≠ q) :
    (l.set p v).getD q 0 = l.getD q 0 := by
  simp [List.getD_eq_getElem?_getD, List.getElem?_set_ne h]

lemma get_bit_set_bit (k : TreeKey) (i j : Nat)
    (hi : i < 8 * k.length) (hj : j < 8 * k.length) :
    get_bit (set_bit k j) i = ((i == j) || get_bit k i) := by
  have hn : 0 < k.length := by omega
  unfold get_bit set_bit
  simp only [List.length_set]
  by_cases hq : i / 8 = j / 8
  · have hpos : k.length - 1 - j / 8 < k.length := by omega
    rw [hq, getD_set_self _ _ _ hpos]
    rw [Nat.testBit_or, Nat.shiftLeft_eq, one_mul, Nat.testBit_two_pow]
    by_cases hij : i = j
    · subst hij; simp
    · have hmod : ¬ (j % 8 = i % 8) := by omega
      simp [hij, hmod]
  · have hdiv_i : i / 8 < k.length := by omega
    have hdiv_j : j / 8 < k.length := by omega
    have hne : k.length - 1 - j / 8 ≠ k.length - 1 - i / 8 := by omega
    rw [getD_set_ne _ _ _ _ hne]
    have hij : (i == j) = false := by
      simp only [beq_eq_false_iff_ne]; omega
    simp [hij]

lemma length_setBitsFrom (src idxs t) : (setBitsFrom src idxs t).length = t.length := by
  induction idxs generalizing t with
  | nil => rfl
  | cons x xs ih =>
    simp only [setBitsFrom, List.foldl_cons] at *
    rw [ih]
    split <;> simp [length_set_bit]

lemma get_bit_setBitsFrom (src idxs t i)
    (hlen : t.length = src.length) (hi : i < 8 * src.length)
    (hidx : ∀ x ∈ idxs, x < 8 * src.length) :
    get_bit (setBitsFrom src idxs t) i =
      (get_bit t i || (idxs.contains i && get_bit src i)) := by
  induction idxs generalizing t with
  | nil => simp [setBitsFrom]
  | cons x xs ih =>
    simp only [setBitsFrom, List.foldl_cons] at *
    have hx : x < 8 * src.length := hidx x (by simp)
    have hxs : ∀ y ∈ xs, y < 8 * src.length := fun y hy => hidx y (by simp [hy])
    have hlen' : (if get_bit src x then set_bit t x else t).length = src.length := by
      split <;> simp [length_set_bit, hlen]
    rw [ih _ hlen' hxs]
    by_cases hgx : get_bit src x
    · simp only [hgx, if_true]
      rw [get_bit_set_bit t i x (by omega) (by omega)]
      by_cases hix : i = x
      · subst hix; simp [hgx]
      · have h1 : (i == x) = false := by simp [hix]
        have h2 : (x == i) = false := by simp [Ne.symm hix]
        simp [List.contains_cons, h1, h2, hix]
    · simp only [hgx, if_false, Bool.false_eq_true, ite_false]
      by_cases hix : i = x
      · subst hix; simp [List.contains_cons, hgx]
      · have h2 : (x == i) = false := by simp [Ne.symm hix]
        simp [List.contains_cons, h2, hix]

lemma mem_natRange {a b i : Nat} : i ∈ natRange a b ↔ a ≤ i ∧ i < b := by
  simp only [natRange, List.mem_map, List.mem_range]
  constructor
  · rintro ⟨x, hx, rfl⟩; omega
  · rintro ⟨h1, h2⟩; exact ⟨i - a, by omega, by omega⟩

lemma length_copyBitsBody (k : TreeKey) (s e : Nat) :
    (copyBitsBody k s e).length = k.length := by
  simp [copyBitsBody, length_setBitsFrom]

lemma getD_rangeMap (n j : Nat) (f : Nat → Nat) :
    ((List.range n).map f).getD j 0 = if j < n then f j else 0 := by
  rw [List.getD_eq_getElem?_getD, List.getElem?_map]
  by_cases h : j < n
  · rw [List.getElem?_range h]; simp [h]
  · rw [List.getElem?_eq_none (by simp; omega)]; simp [h]

lemma contains_natRange (a b i : Nat) :
    (natRange a b).contains i = decide (a ≤ i ∧ i < b) := by
  show List.elem i (natRange a b) = _
  rw [List.elem_eq_mem, decide_eq_decide]
  exact mem_natRange

/-- The union of the three copied regions of `copy_bits` (whole bytes, low
partial edge, high partial edge) is exactly the requested interval. -/
lemma copyRegion_iff (n s e i : Nat) (hs : s < 8*n) (he : e ≤ 8*n) (hi : i < 8*n)
    (eb sb : Nat)
    (hebd : (s % 8 = 0 ∧ eb = n - s / 8) ∨ (s % 8 ≠ 0 ∧ eb = n - s / 8 - 1))
    (hsb : sb = n - e / 8) :
    ((sb < n ∧ sb ≤ eb ∧ sb ≤ n - 1 - i / 8 ∧ n - 1 - i / 8 < eb) ∨
     (s ≤ i ∧ i < min ((n - eb) * 8) e) ∨ (max ((n - sb) * 8) s ≤ i ∧ i < e)) ↔
    (s ≤ i ∧ i < e) := by
  rcases hebd with ⟨h8, rfl⟩ | ⟨h8, rfl⟩ <;> subst hsb <;> omega

lemma get_bit_copyBitsBody (k : TreeKey) (s e i : Nat)
    (hs : s < 8 * k.length) (he : e ≤ 8 * k.length) (hi : i < 8 * k.length) :
    get_bit (copyBitsBody k s e) i = (decide (s ≤ i ∧ i < e) && get_bit k i) := by
  have hn : 0 < k.length := by omega
  have hebd : (s % 8 = 0 ∧ (k.length - s / 8 - (if s % 8 ≠ 0 then 1 else 0)) = k.length - s / 8) ∨
      (s % 8 ≠ 0 ∧ (k.length - s / 8 - (if s % 8 ≠ 0 then 1 else 0)) = k.length - s / 8 - 1) := by
    by_cases h : s % 8 = 0 <;> simp [h]
  show get_bit (setBitsFrom k _ _) i = _
  rw [get_bit_setBitsFrom k _ _ i (by simp) hi ?hidx]
  case hidx =>
    intro x hx
    rcases List.mem_append.mp hx with h | h
    · have := mem_natRange.mp h; omega
    · have := mem_natRange.mp h; omega
  have htb : get_bit ((List.range k.length).map (fun j =>
      if k.length - e / 8 < k.length ∧
         k.length - e / 8 ≤ k.length - s / 8 - (if s % 8 ≠ 0 then 1 else 0) ∧
         k.length - e / 8 ≤ j ∧ j < k.length - s / 8 - (if s % 8 ≠ 0 then 1 else 0)
      then k.getD j 0 else 0)) i =
      ((decide (k.length - e / 8 < k.length ∧
         k.length - e / 8 ≤ k.length - s / 8 - (if s % 8 ≠ 0 then 1 else 0) ∧
         k.length - e / 8 ≤ k.length - 1 - i / 8 ∧
         k.length - 1 - i / 8 < k.length - s / 8 - (if s % 8 ≠ 0 then 1 else 0))) &&
        get_bit k i) := by
    unfold get_bit
    rw [List.length_map, List.length_range, getD_rangeMap]
    rw [if_pos (show k.length - 1 - i / 8 < k.length by omega)]
    by_cases hc : k.length - e / 8 < k.length ∧
         k.length - e / 8 ≤ k.length - s / 8 - (if s % 8 ≠ 0 then 1 else 0) ∧
         k.length - e / 8 ≤ k.length - 1 - i / 8 ∧
         k.length - 1 - i / 8 < k.length - s / 8 - (if s % 8 ≠ 0 then 1 else 0)
    · rw [if_pos hc, decide_eq_true hc, Bool.true_and]
    · rw [if_neg hc, decide_eq_false hc, Bool.false_and, Nat.zero_testBit]
  rw [htb]
  rw [show ∀ l1 l2 : List Nat, (l1 ++ l2).contains i = (List.elem i l1 || List.elem i l2) by
    intro l1 l2
    show List.elem i (l1 ++ l2) = _
    rw [List.elem_eq_mem, List.elem_eq_mem, List.elem_eq_mem, ← Bool.decide_or, decide_eq_decide]
    exact List.mem_append]
  rw [show (List.elem i (natRange s (min ((k.length -
        (k.length - s / 8 - (if s % 8 ≠ 0 then 1 else 0))) * 8) e))) =
      decide (s ≤ i ∧ i < min ((k.length -
        (k.length - s / 8 - (if s % 8 ≠ 0 then 1 else 0))) * 8) e) from
    contains_natRange _ _ i]
  rw [show (List.elem i (natRange (max ((k.length - (k.length - e / 8)) * 8) s) e)) =
      decide ((max ((k.length - (k.length - e / 8)) * 8) s) ≤ i ∧ i < e) from
    contains_natRange _ _ i]
  by_cases hg : get_bit k i
  · simp only [hg, Bool.and_true, ← Bool.decide_or, decide_eq_decide]
    exact copyRegion_iff k.length s e i hs he hi _ _ hebd rfl
  · simp [hg]

lemma get_bit_zeroKey (n i : Nat) : get_bit (zeroKey n) i = false := by
  unfold get_bit zeroKey
  have h : (List.replicate n (0:Nat)).getD (List.length (List.replicate n (0:Nat)) - 1 - i / 8) 0
      = 0 := by
    rw [List.getD_eq_getElem?_getD]
    rcases Nat.lt_or_ge (List.length (List.replicate n (0:Nat)) - 1 - i / 8) n with h | h
    · rw [List.getElem?_replicate_of_lt h]; rfl
    · rw [List.getElem?_eq_none (by simpa using h)]; rfl
  rw [h, Nat.zero_testBit]

lemma length_zeroKey (n : Nat) : (zeroKey n).length = n := by simp [zeroKey]

lemma length_copy_bits_from (k : TreeKey) (s : Nat) :
    (copy_bits_from k s).length = k.length := by
  unfold copy_bits_from
  split
  · simp [zeroKey]
  · exact length_copyBitsBody k s _

lemma get_bit_copy_bits_from (k : TreeKey) (s i : Nat) (hi : i < 8 * k.length) :
    get_bit (copy_bits_from k s) i = (decide (s ≤ i) && get_bit k i) := by
  unfold copy_bits_from
  split
  · rename_i h
    rw [get_bit_zeroKey]
    have : ¬ s ≤ i := by omega
    simp [this]
  · rename_i h
    rw [get_bit_copyBitsBody k s _ i (by omega) (by omega) hi]
    have : (s ≤ i ∧ i < 8 * k.length) ↔ s ≤ i := by omega
    simp [this]

lemma length_parent_path (k : TreeKey) (h : Nat) :
    (parent_path k h).length = k.length := length_copy_bits_from k (h + 1)

lemma get_bit_parent_path (k : TreeKey) (h i : Nat) (hi : i < 8 * k.length) :
    get_bit (parent_path k h) i = (decide (h + 1 ≤ i) && get_bit k i) :=
  get_bit_copy_bits_from k (h + 1) i hi

/-- C6: `copy_bits(a..b)` with `a ≤ b` succeeds; a start at or past `8N`
yields the all-zero key, and otherwise the result holds exactly the source
key's bits on `[a, min b (8N))` and `0` everywhere else in `[0, 8N)`. -/
theorem copy_bits_spec (k : TreeKey) (N a b : Nat) (hk : k.length = N) (hab : a ≤ b) :
    ∃ r, copy_bits k a b = .ok r ∧ r.length = N ∧
      (8 * N ≤ a → r = zeroKey N) ∧
      (∀ i, i < 8 * N →
        get_bit r i = (decide (a ≤ i ∧ i < min b (8 * N)) && get_bit k i)) := by
  subst hk
  by_cases ha : 8 * k.length ≤ a
  · refine ⟨zeroKey k.length, ?_, length_zeroKey _, fun _ => rfl, ?_⟩
    · simp [copy_bits, ha]
    · intro i hi
      have hno : ¬(a ≤ i ∧ i < min b (8 * k.length)) := by omega
      rw [get_bit_zeroKey, decide_eq_false hno, Bool.false_and]
  · have hmin : ¬ (min b (8 * k.length) < a) := by omega
    refine ⟨copyBitsBody k a (min b (8 * k.length)), ?_, length_copyBitsBody k a _,
      fun h => absurd h ha, ?_⟩
    · simp only [copy_bits, if_neg ha, if_neg hmin]
    · intro i hi
      exact get_bit_copyBitsBody k a _ i (by omega) (by omega) hi

/-- Closed instance of `copy_bits_spec` at a concrete key and range. -/
theorem copy_bits_spec_witness :
    ∃ r, copy_bits [171] 1 3 = .ok r ∧ r.length = 1 ∧
      (8 * 1 ≤ 1 → r = zeroKey 1) ∧
      (∀ i, i < 8 * 1 →
        get_bit r i = (decide (1 ≤ i ∧ i < min 3 (8 * 1)) && get_bit [171] i)) :=
  copy_bits_spec [171] 1 1 3 rfl (by omega)

lemma forkAux_spec (a b : TreeKey) (m : Nat) :
    ((∀ i, i < m → get_bit a i = get_bit b i) → forkAux a b m = 0) ∧
    (∀ i, i < m → get_bit a i ≠ get_bit b i →
      (get_bit a (forkAux a b m) ≠ get_bit b (forkAux a b m) ∧
        i ≤ forkAux a b m ∧ forkAux a b m < m)) := by
  induction m with
  | zero => exact ⟨fun _ => rfl, fun i hi => absurd hi (by omega)⟩
  | succ m ih =>
    by_cases hm : get_bit a m ≠ get_bit b m
    · have hf : forkAux a b (m + 1) = m := by simp [forkAux, hm]
      refine ⟨fun hall => absurd (hall m (by omega)) hm, fun i hi _ => ?_⟩
      rw [hf]
      exact ⟨hm, by omega, by omega⟩
    · push_neg at hm
      have hf : forkAux a b (m + 1) = forkAux a b m := by simp [forkAux, hm]
      constructor
      · intro hall
        rw [hf]
        exact ih.1 (fun i hi => hall i (by omega))
      · intro i hi hdiff
        have him : i ≠ m := fun h => hdiff (h ▸ hm)
        have hi' : i < m := by omega
        rw [hf]
        obtain ⟨h1, h2, h3⟩ := ih.2 i hi' hdiff
        exact ⟨h1, h2, by omega⟩

/-- C9: `fork_height(a, b)` is the largest bit index below `8N` at which the
two keys differ, and `0` when the keys agree on every bit. -/
theorem fork_height_spec (a b : TreeKey) (N : Nat) (ha : a.length = N) :
    ((∀ i, i < 8 * N → get_bit a i = get_bit b i) → fork_height a b = 0) ∧
    (∀ i, i < 8 * N → get_bit a i ≠ get_bit b i →
      (get_bit a (fork_height a b) ≠ get_bit b (fork_height a b) ∧
        i ≤ fork_height a b ∧ fork_height a b < 8 * N)) := by
  subst ha
  exact forkAux_spec a b (8 * a.length)

/-- Closed instance of `fork_height_spec` at concrete keys. -/
theorem fork_height_spec_witness :
    get_bit [10] (fork_height [10] [2]) ≠ get_bit [2] (fork_height [10] [2]) ∧
      3 ≤ fork_height [10] [2] ∧ fork_height [10] [2] < 8 * 1 :=
  (fork_height_spec [10] [2] 1 rfl).2 3 (by omega) (by decide)

/-! ### Ordering on keys and the `BTreeMap` working buffer

The Rust walk stores work items in a `BTreeMap<(usize, TreeKey), (usize, T)>`
and always pops the least key.  We model it by a strictly sorted association
list whose head is the least entry. -/

/-- Strict lexicographic order on byte arrays, as `Ord` on Rust `[u8; N]`. -/
def listLtB : List Nat → List Nat → Bool
  | [], [] => false
  | [], _ :: _ => true
  | _ :: _, [] => false
  | a :: as, b :: bs => if a < b then true else if b < a then false else listLtB as bs

/-- Strict order on `(height, key)` pairs: lexicographic, heights first. -/
def hkLt (a b : Nat × TreeKey) : Bool :=
  if a.1 < b.1 then true else if b.1 < a.1 then false else listLtB a.2 b.2

/-- The working buffer: a sorted association list from `(height, key)` to
`(leaf_index, payload)`. -/
abbrev TBuf (α : Type) := List ((Nat × TreeKey) × (Nat × α))

/-- Ordered insert replacing an existing binding of the same key
(`BTreeMap::insert`). -/
def tbInsert {α : Type} (key : Nat × TreeKey) (val : Nat × α) : TBuf α → TBuf α
  | [] => [(key, val)]
  | e :: es =>
    if hkLt key e.1 then (key, val) :: e :: es
    else if key == e.1 then (key, val) :: es
    else e :: tbInsert key val es

/-- Collect a list of bindings into the buffer (`BTreeMap::from_iter`):
repeated inserts, later bindings of an equal key replacing earlier ones. -/
def buildTB {α : Type} (l : List ((Nat × TreeKey) × (Nat × α))) : TBuf α :=
  l.foldl (fun tb e => tbInsert e.1 e.2 tb) []

/-- Stable insertion of `x` into a list sorted by `le`. -/
def insertSorted {α : Type} (le : α → α → Bool) (x : α) : List α → List α
  | [] => [x]
  | y :: ys => if le x y then x :: y :: ys else y :: insertSorted le x ys

/-- Comparator used to sort leaves: `p ≤ q` iff `q`'s key is not below
`p`'s.  Only the keys are compared. -/
def keyLe {α β : Type} (p : TreeKey × α) (q : TreeKey × β) : Bool :=
  !(listLtB q.1 p.1)

/-- Sort the `(key, value)` pairs by key byte order
(`leaves.sort_unstable_by_key(|(k, _v)| **k)`). -/
def sortByKey {α : Type} (l : List (TreeKey × α)) : List (TreeKey × α) :=
  l.foldr (insertSorted keyLe) []

/-! ### Hashing rules

The crate's `merge.rs` / `traits.rs` modules are not part of the given
sources; `hash_leaf` and `merge` are modelled from the spec (§4.3), with the
hasher an arbitrary function from byte strings to digests. -/

/-- The all-zero 32-byte digest, the designated empty sentinel. -/
def zero32 : List Nat := List.replicate 32 0

/-- Modelled from the spec: leaf hash rule of `merge.rs` (not under `src/`):
`H(key_bytes ‖ value_hash)`, or the zero digest if the value is the zero
sentinel.  `H256` is the canonical `Value`, hashing to itself, so the value's
32-byte hash is the value. -/
def hash_leaf (hashH : List Nat → List Nat) (k : TreeKey) (v : List Nat) : List Nat :=
  if v = zero32 then zero32 else hashH (k ++ v)

/-- Modelled from the spec: branch merge rule of `merge.rs` (not under
`src/`): zero if both children are zero, the non-zero child if exactly one is
zero, else `H(left ‖ right)`. -/
def merge (hashH : List Nat → List Nat) (l r : List Nat) : List Nat :=
  if l = zero32 ∧ r = zero32 then zero32
  else if l = zero32 then r
  else if r = zero32 then l
  else hashH (l ++ r)

/-- A concrete sample hasher used in closed evaluations (the hash primitive
is an external collaborator; any function of this type instantiates it):
pad with zero bytes and truncate to 32 bytes. -/
def padHash (l : List Nat) : List Nat := (l ++ List.replicate 32 0).take 32

/-! ### `MerkleProof::compute_root` -/

/-- The structured proof (`MerkleProof`): per-leaf pending sibling heights
and the queue of `(digest, height)` sibling entries. -/
structure MerkleProof where
  leaves_path : List (List Nat)
  proof : List (List Nat × Nat)
  deriving Repr, DecidableEq

/-- Common tail of one iteration of the `compute_root` walk (source lines
212–225): lift the height to the sibling's, merge ordered by the key's bit at
the lifted height (the `get_bit` there panics when the lifted height is out
of the key's range), pop the consumed entry of `leaves_path[leaf_index]`,
and form the parent work item. -/
def rootTail (hashH : List Nat → List Nat) (N height : Nat) (key : TreeKey)
    (leafIndex : Nat) (node sibling : List Nat) (siblingHeight : Nat)
    (lp : List (List Nat)) :
    Res (((Nat × TreeKey) × (Nat × List Nat)) × List (List Nat)) :=
  let height2 := if height < siblingHeight then siblingHeight else height
  let parentKey := parent_path key height2
  if 8 * N ≤ height2 then .error (.panicked "index out of range")
  else
    let parent := if get_bit key height2 then merge hashH sibling node
      else merge hashH node sibling
    let lp2 := lp.set leafIndex ((lp.getD leafIndex []).tail)
    .ok (((height2 + 1, parentKey), (leafIndex, parent)), lp2)

/-- The sibling work-item key at `height` (source lines 186–189 and 92–95):
the parent path with bit `height` set when the popped key has it clear. -/
def siblingKeyOf (key : TreeKey) (height : Nat) : TreeKey :=
  let siblingKey0 := parent_path key height
  if !(get_bit key height) then set_bit siblingKey0 height else siblingKey0

/-- The `compute_root` reconstruction loop (source lines 172–228), indexed by
fuel (the loop terminates, and callers supply fuel exceeding the iteration
count; running out of fuel is reported as a panic outcome and is unreachable
from `compute_root`).  Each iteration pops the least `(height, key)` work
item; out-of-range bit accesses and `expect("pop proof")` are modelled as
panic outcomes. -/
def walkRoot (hashH : List Nat → List Nat) (N : Nat) :
    Nat → TBuf (List Nat) → List (List Nat × Nat) → List (List Nat) →
    Res (List Nat)
  | 0, _, _, _ => .error (.panicked "fuel exhausted")
  | _ + 1, [], _, _ => .error .corruptedProof
  | fuel + 1, ((height, key), (leafIndex, node)) :: rest, pf, lp =>
    if pf.isEmpty && rest.isEmpty then .ok node
    else if height == 8 * N then
      if !pf.isEmpty then .error .corruptedProof else .ok node
    else if 8 * N ≤ height then .error (.panicked "index out of range")
    else
      let siblingKey := siblingKeyOf key height
      if rest.head?.map Prod.fst == some (height, siblingKey) then
        match rest with
        | [] => .error (.panicked "pop sibling")
        | (_, (_, sibling)) :: rest2 =>
          match rootTail hashH N height key leafIndex node sibling height lp with
          | .error e => .error e
          | .ok (entry, lp2) => walkRoot hashH N fuel (tbInsert entry.1 entry.2 rest2) pf lp2
      else
        let mergeHeight := (lp.getD leafIndex []).headD height
        if height != mergeHeight then
          let parentKey := copy_bits_from key mergeHeight
          walkRoot hashH N fuel (tbInsert (mergeHeight, parentKey) (leafIndex, node) rest) pf lp
        else
          match pf with
          | [] => .error (.panicked "pop proof")
          | (pnode, pheight) :: pfRest =>
            match rootTail hashH N height key leafIndex node pnode pheight lp with
            | .error e => .error e
            | .ok (entry, lp2) => walkRoot hashH N fuel (tbInsert entry.1 entry.2 rest) pfRest lp2

/-- Fuel sufficient for the walk: every iteration either shrinks
`|proof| + Σ|leaves_path[i]| + |tree_buf|` or (a skip) keeps it and shrinks
the number of entries pending a skip, which the square bound dominates. -/
def rootFuel (tbLen pfLen : Nat) (lp : List (List Nat)) : Nat :=
  (pfLen + (lp.map List.length).sum + tbLen + 2) *
    (pfLen + (lp.map List.length).sum + tbLen + 2)

/-- `MerkleProof::compute_root` (source lines 142–229). -/
def compute_root (hashH : List Nat → List Nat) (N : Nat) (p : MerkleProof)
    (leaves : List (TreeKey × List Nat)) : Res (List Nat) :=
  if leaves.isEmpty then .error .emptyKeys
  else if leaves.length != p.leaves_path.length then
    .error (.incorrectNumberOfLeaves p.leaves_path.length leaves.length)
  else
    let sorted := sortByKey leaves
    let tb := buildTB (sorted.enum.map fun ikv =>
      ((0, ikv.2.1), (ikv.1, hash_leaf hashH ikv.2.1 ikv.2.2)))
    walkRoot hashH N (rootFuel tb.length p.proof.length p.leaves_path) tb
      p.proof p.leaves_path

/-- `MerkleProof::verify` (source lines 233–244). -/
def verify (hashH : List Nat → List Nat) (N : Nat) (p : MerkleProof)
    (root : List Nat) (leaves : List (TreeKey × List Nat)) : Res Bool :=
  match compute_root hashH N p leaves with
  | .error e => .error e
  | .ok calculated => .ok (calculated == root)

/-! ### Keys are determined by their bits -/

lemma key_ext {a b : TreeKey} (hlen : a.length = b.length)
    (ha : ∀ x ∈ a, x < 256) (hb : ∀ x ∈ b, x < 256)
    (h : ∀ i, i < 8 * a.length → get_bit a i = get_bit b i) : a = b := by
  apply List.ext_getElem?
  intro j
  rcases Nat.lt_or_ge j a.length with hj | hj
  · have hj' : j < b.length := hlen ▸ hj
    rw [List.getElem?_eq_getElem hj, List.getElem?_eq_getElem hj']
    congr 1
    apply Nat.eq_of_testBit_eq
    intro p
    rcases Nat.lt_or_ge p 8 with hp | hp
    · have hi : 8 * (a.length - 1 - j) + p < 8 * a.length := by omega
      have hdiv : (8 * (a.length - 1 - j) + p) / 8 = a.length - 1 - j := by omega
      have hmod : (8 * (a.length - 1 - j) + p) % 8 = p := by omega
      have hga := h (8 * (a.length - 1 - j) + p) hi
      unfold get_bit at hga
      rw [hdiv, hmod] at hga
      have hidx : a.length - 1 - (a.length - 1 - j) = j := by omega
      rw [hidx, ← hlen, hidx] at hga
      rw [List.getD_eq_getElem?_getD, List.getElem?_eq_getElem hj] at hga
      rw [List.getD_eq_getElem?_getD, List.getElem?_eq_getElem hj'] at hga
      exact hga
    · rw [Nat.testBit_lt_two_pow, Nat.testBit_lt_two_pow]
      · calc b[j] < 256 := hb _ (List.getElem_mem hj')
          _ = 2 ^ 8 := rfl
          _ ≤ 2 ^ p := Nat.pow_le_pow_right (by omega) hp
      · calc a[j] < 256 := ha _ (List.getElem_mem hj)
          _ = 2 ^ 8 := rfl
          _ ≤ 2 ^ p := Nat.pow_le_pow_right (by omega) hp
  · rw [List.getElem?_eq_none (by omega), List.getElem?_eq_none (by omega)]

lemma bytes_lt_zeroKey (n : Nat) : ∀ x ∈ zeroKey n, x < 256 := by
  intro x hx
  have hx0 : x = 0 := List.eq_of_mem_replicate (by simpa [zeroKey] using hx)
  omega

lemma bytes_lt_set_bit {k : TreeKey} {i : Nat} (h : ∀ x ∈ k, x < 256) :
    ∀ x ∈ set_bit k i, x < 256 := by
  intro x hx
  unfold set_bit at hx
  rcases List.mem_or_eq_of_mem_set hx with hm | rfl
  · exact h x hm
  · apply Nat.or_lt_two_pow (n := 8)
    · rcases Nat.lt_or_ge (k.length - 1 - i / 8) k.length with hp | hp
      · rw [List.getD_eq_getElem?_getD, List.getElem?_eq_getElem hp]
        exact h _ (List.getElem_mem hp)
      · rw [List.getD_eq_getElem?_getD, List.getElem?_eq_none (by omega)]
        exact Nat.pos_pow_of_pos _ (by omega)
    · rw [Nat.shiftLeft_eq, one_mul]
      exact Nat.pow_lt_pow_right (by omega) (by omega)

lemma bytes_lt_setBitsFrom {src idxs t} (h : ∀ x ∈ t, x < 256) :
    ∀ x ∈ setBitsFrom src idxs t, x < 256 := by
  induction idxs generalizing t with
  | nil => exact h
  | cons y ys ih =>
    simp only [setBitsFrom, List.foldl_cons] at *
    apply ih
    split
    · exact bytes_lt_set_bit h
    · exact h

lemma bytes_lt_copyBitsBody {k : TreeKey} (s e : Nat) (h : ∀ x ∈ k, x < 256) :
    ∀ x ∈ copyBitsBody k s e, x < 256 := by
  unfold copyBitsBody
  apply bytes_lt_setBitsFrom
  intro x hx
  rcases List.mem_map.mp hx with ⟨j, _, rfl⟩
  have hgetD : k.getD j 0 < 256 := by
    rcases Nat.lt_or_ge j k.length with hp | hp
    · rw [List.getD_eq_getElem?_getD, List.getElem?_eq_getElem hp]
      exact h _ (List.getElem_mem hp)
    · rw [List.getD_eq_getElem?_getD, List.getElem?_eq_none (by omega)]
      simp
  have hif : ∀ (c : Prop) (_ : Decidable c), (if c then k.getD j 0 else 0) < 256 := by
    intro c inst
    split
    · exact hgetD
    · omega
  exact hif _ _

lemma bytes_lt_copy_bits_from {k : TreeKey} (s : Nat) (h : ∀ x ∈ k, x < 256) :
    ∀ x ∈ copy_bits_from k s, x < 256 := by
  unfold copy_bits_from
  split
  · exact bytes_lt_zeroKey _
  · exact bytes_lt_copyBitsBody _ _ h

lemma bytes_lt_parent_path {k : TreeKey} (h : Nat) (hk : ∀ x ∈ k, x < 256) :
    ∀ x ∈ parent_path k h, x < 256 := bytes_lt_copy_bits_from _ hk

lemma copy_bits_from_zeroKey (n s : Nat) : copy_bits_from (zeroKey n) s = zeroKey n := by
  apply key_ext
  · rw [length_copy_bits_from]
  · exact bytes_lt_copy_bits_from _ (bytes_lt_zeroKey n)
  · exact bytes_lt_zeroKey n
  · intro i hi
    rw [length_copy_bits_from, length_zeroKey] at hi
    rw [get_bit_copy_bits_from _ _ _ (by rw [length_zeroKey]; exact hi), get_bit_zeroKey,
      Bool.and_false]

lemma parent_path_zeroKey (n h : Nat) : parent_path (zeroKey n) h = zeroKey n :=
  copy_bits_from_zeroKey n (h + 1)

/-! ### One-iteration unfolding lemmas for the `compute_root` walk -/

section WalkRootLemmas

variable (hashH : List Nat → List Nat) (N fuel height : Nat) (key : TreeKey)
  (leafIndex : Nat) (node : List Nat) (rest : TBuf (List Nat))
  (pf : List (List Nat × Nat)) (lp : List (List Nat))

lemma walkRoot_done (hdone : (pf.isEmpty && rest.isEmpty) = true) :
    walkRoot hashH N (fuel + 1) (((height, key), (leafIndex, node)) :: rest) pf lp =
      .ok node := by
  simp only [walkRoot, hdone, if_true]

lemma walkRoot_top_ok (hpf : pf.isEmpty = true) (hrest : rest.isEmpty = false)
    (htop : height = 8 * N) :
    walkRoot hashH N (fuel + 1) (((height, key), (leafIndex, node)) :: rest) pf lp =
      .ok node := by
  subst htop
  simp only [walkRoot, hpf, hrest, Bool.true_and, Bool.false_eq_true, if_false,
    beq_self_eq_true, if_true, Bool.not_true, Bool.true_eq_false, ite_false, ite_true]

lemma walkRoot_top_err (hpf : pf.isEmpty = false) (htop : height = 8 * N) :
    walkRoot hashH N (fuel + 1) (((height, key), (leafIndex, node)) :: rest) pf lp =
      .error .corruptedProof := by
  subst htop
  simp only [walkRoot, hpf, Bool.false_and, Bool.false_eq_true, if_false,
    beq_self_eq_true, if_true, Bool.not_false, ite_true]

lemma walkRoot_panic_height (hdone : (pf.isEmpty && rest.isEmpty) = false)
    (hne : height ≠ 8 * N) (hge : 8 * N ≤ height) :
    walkRoot hashH N (fuel + 1) (((height, key), (leafIndex, node)) :: rest) pf lp =
      .error (.panicked "index out of range") := by
  have hbeq : (height == 8 * N) = false := beq_eq_false_iff_ne.mpr hne
  simp only [walkRoot, hdone, hbeq, Bool.false_eq_true, if_false, if_pos hge]

lemma walkRoot_caseA (hs js : Nat) (ks : TreeKey) (sib : List Nat)
    (rest2 : TBuf (List Nat))
    (hdone : (pf.isEmpty && (((hs, ks), (js, sib)) :: rest2 : TBuf (List Nat)).isEmpty) = false)
    (hne : height ≠ 8 * N) (hlt : height < 8 * N)
    (hsk : (hs, ks) = (height, siblingKeyOf key height)) :
    walkRoot hashH N (fuel + 1)
        (((height, key), (leafIndex, node)) :: ((hs, ks), (js, sib)) :: rest2) pf lp =
      (match rootTail hashH N height key leafIndex node sib height lp with
        | .error e => .error e
        | .ok (entry, lp2) => walkRoot hashH N fuel (tbInsert entry.1 entry.2 rest2) pf lp2) := by
  have hbeq : (height == 8 * N) = false := beq_eq_false_iff_ne.mpr hne
  have hhead : ((((hs, ks), (js, sib)) :: rest2 : TBuf (List Nat)).head?.map Prod.fst ==
      some (height, siblingKeyOf key height)) = true := by
    simp only [List.head?_cons, Option.map_some]
    rw [hsk]
    exact beq_self_eq_true _
  simp only [walkRoot, hdone, hbeq, Bool.false_eq_true, if_false, if_neg (by omega : ¬ 8 * N ≤ height),
    hhead, if_true]

lemma walkRoot_sibMiss_skip
    (hdone : (pf.isEmpty && rest.isEmpty) = false)
    (hne : height ≠ 8 * N) (hlt : height < 8 * N)
    (hsib : (rest.head?.map Prod.fst == some (height, siblingKeyOf key height)) = false)
    (hmh : (lp.getD leafIndex []).headD height ≠ height) :
    walkRoot hashH N (fuel + 1) (((height, key), (leafIndex, node)) :: rest) pf lp =
      walkRoot hashH N fuel
        (tbInsert ((lp.getD leafIndex []).headD height,
            copy_bits_from key ((lp.getD leafIndex []).headD height))
          (leafIndex, node) rest) pf lp := by
  have hbeq : (height == 8 * N) = false := beq_eq_false_iff_ne.mpr hne
  have hbne : (height != (lp.getD leafIndex []).headD height) = true :=
    bne_iff_ne.mpr (Ne.symm hmh)
  simp only [walkRoot, hdone, hbeq, Bool.false_eq_true, if_false,
    if_neg (by omega : ¬ 8 * N ≤ height), hsib, hbne, if_true]

lemma walkRoot_sibMiss_consume (pnode : List Nat) (ph : Nat)
    (pfRest : List (List Nat × Nat))
    (hdone : (((pnode, ph) :: pfRest : List (List Nat × Nat)).isEmpty && rest.isEmpty) = false)
    (hne : height ≠ 8 * N) (hlt : height < 8 * N)
    (hsib : (rest.head?.map Prod.fst == some (height, siblingKeyOf key height)) = false)
    (hmh : (lp.getD leafIndex []).headD height = height) :
    walkRoot hashH N (fuel + 1) (((height, key), (leafIndex, node)) :: rest)
        ((pnode, ph) :: pfRest) lp =
      (match rootTail hashH N height key leafIndex node pnode ph lp with
        | .error e => .error e
        | .ok (entry, lp2) => walkRoot hashH N fuel (tbInsert entry.1 entry.2 rest) pfRest lp2) := by
  have hbeq : (height == 8 * N) = false := beq_eq_false_iff_ne.mpr hne
  have hbne : (height != (lp.getD leafIndex []).headD height) = false := by
    rw [hmh]; exact bne_self_eq_false _
  simp only [walkRoot, hdone, hbeq, Bool.false_eq_true, if_false,
    if_neg (by omega : ¬ 8 * N ≤ height), hsib, hbne, ite_false]

lemma walkRoot_sibMiss_panic
    (hdone : (([] : List (List Nat × Nat)).isEmpty && rest.isEmpty) = false)
    (hne : height ≠ 8 * N) (hlt : height < 8 * N)
    (hsib : (rest.head?.map Prod.fst == some (height, siblingKeyOf key height)) = false)
    (hmh : (lp.getD leafIndex []).headD height = height) :
    walkRoot hashH N (fuel + 1) (((height, key), (leafIndex, node)) :: rest) [] lp =
      .error (.panicked "pop proof") := by
  have hbeq : (height == 8 * N) = false := beq_eq_false_iff_ne.mpr hne
  have hbne : (height != (lp.getD leafIndex []).headD height) = false := by
    rw [hmh]; exact bne_self_eq_false _
  simp only [walkRoot, hdone, hbeq, Bool.false_eq_true, if_false,
    if_neg (by omega : ¬ 8 * N ≤ height), hsib, hbne, ite_false]

end WalkRootLemmas

/-- C2: refuted — `MerkleProof::compute_root` panics (via
`proof.pop_front().expect("pop proof")`) on a well-typed external input: a
proof with two leaves, empty `leaves_path` entries and an empty `proof`
queue, supplied with two non-sibling keys.  The claim (and the spec's
propagation policy) says an error `Result` is always returned instead. -/
theorem compute_root_panics_on_exhausted_proof :
    compute_root padHash 1 ⟨[[], []], []⟩
      [([0], List.replicate 32 5), ([2], List.replicate 32 9)] =
      .error (.panicked "pop proof") := by rfl

/-- C5 counterexample: a proof whose consumed entry's height (7) differs from
the first pending height of `leaves_path[0]` (5) is accepted:
`compute_root` returns `Ok` instead of rejecting with an error. -/
theorem mismatched_proof_height_not_rejected :
    compute_root padHash 1 ⟨[[5]], [(padHash [9, 9], 7)]⟩ [([0], List.replicate 32 5)] =
      .ok (merge padHash (hash_leaf padHash [0] (List.replicate 32 5)) (padHash [9, 9])) := by
  rfl

/-- C5 amended: when a proof entry is consumed because the sibling is absent,
its recorded height is not compared with the first pending height of
`leaves_path[leaf_index]` at runtime (the equality is only a `debug_assert`,
compiled out in release): a proof entry whose height `ph` differs from the
pending height `mh` is consumed without error, and the walk proceeds with
the proof entry's height as the merge height. -/
theorem mismatched_proof_height_accepted (hashH : List Nat → List Nat)
    (d v : List Nat) (mh ph : Nat) (h0 : mh ≠ 0) (h1 : mh ≤ ph) (h2 : ph < 8) :
    compute_root hashH 1 ⟨[[mh]], [(d, ph)]⟩ [([0], v)] =
      .ok (merge hashH (hash_leaf hashH [0] v) d) := by
  show walkRoot hashH 1 25 [((0, [0]), (0, hash_leaf hashH [0] v))] [(d, ph)] [[mh]] =
    .ok (merge hashH (hash_leaf hashH [0] v) d)
  rw [walkRoot_sibMiss_skip hashH 1 24 0 [0] 0 (hash_leaf hashH [0] v) [] [(d, ph)] [[mh]]
    rfl (by omega) (by omega) rfl h0]
  have hh : (([[mh]].getD 0 []).headD 0) = mh := rfl
  rw [hh]
  have hcb : copy_bits_from [0] mh = [0] := copy_bits_from_zeroKey 1 mh
  rw [hcb]
  show walkRoot hashH 1 24 [((mh, [0]), (0, hash_leaf hashH [0] v))] [(d, ph)] [[mh]] = _
  rw [walkRoot_sibMiss_consume hashH 1 23 mh [0] 0 (hash_leaf hashH [0] v) [] [[mh]] d ph []
    rfl (by omega) (by omega) rfl rfl]
  have hh2 : (if mh < ph then ph else mh) = ph := by split <;> omega
  have hgb : get_bit [0] ph = false := get_bit_zeroKey 1 ph
  have hpp : parent_path [0] ph = [0] := parent_path_zeroKey 1 ph
  simp only [rootTail, hh2, hgb, hpp, if_neg (by omega : ¬ 8 * 1 ≤ ph), Bool.false_eq_true,
    ite_false]
  rfl

/-- Closed instance of `mismatched_proof_height_accepted` at concrete
heights, hasher, digest and value. -/
theorem mismatched_proof_height_accepted_witness :
    compute_root padHash 1 ⟨[[5]], [(padHash [9, 9], 7)]⟩ [([0], List.replicate 32 5)] =
      .ok (merge padHash (hash_leaf padHash [0] (List.replicate 32 5)) (padHash [9, 9])) :=
  mismatched_proof_height_accepted padHash (padHash [9, 9]) (List.replicate 32 5) 5 7
    (by omega) (by omega) (by omega)

/-! ### `MerkleProof::compile` -/

/-- A program under construction: opcode bytes and the half-open range of
sorted-leaf indices it covers (`(Vec<u8>, Option<Range>)` in the source). -/
abbrev Prog := List Nat × Option (Nat × Nat)

/-- `leaf_program` (source lines 247–256). -/
def leaf_program (leafIndex : Nat) : Prog :=
  ([0x4C], some (leafIndex, leafIndex + 1))

/-- Big-endian `u64::to_be_bytes` of a height value. -/
def be64 (h : Nat) : List Nat :=
  [h / 2 ^ 56 % 256, h / 2 ^ 48 % 256, h / 2 ^ 40 % 256, h / 2 ^ 32 % 256,
   h / 2 ^ 24 % 256, h / 2 ^ 16 % 256, h / 2 ^ 8 % 256, h % 256]

/-- `proof_program` (source lines 258–272): child program, then the `P`
opcode, the 8-byte height and the 32-byte sibling digest; the child's range
is kept. -/
def proof_program (child : Prog) (pnode : List Nat) (height : Nat) : Prog :=
  (child.1 ++ 0x50 :: (be64 height ++ pnode), child.2)

/-- `merge_program` (source lines 274–314): concatenate the two child
programs (the first-popped child first) followed by the `H` opcode and the
8-byte height; ranges must be adjacent (`a.end == b.start`), else
`NonMergableRange`.  Two absent ranges hit the source's `unwrap()`. -/
def merge_program (a b : Prog) (height : Nat) : Res Prog :=
  match a.2, b.2 with
  | none, none => .error (.panicked "unwrap on None")
  | none, some r => .ok (a.1 ++ b.1 ++ 0x48 :: be64 height, some r)
  | some r, none => .ok (a.1 ++ b.1 ++ 0x48 :: be64 height, some r)
  | some ra, some rb =>
    if ra.2 == rb.1 then .ok (a.1 ++ b.1 ++ 0x48 :: be64 height, some (ra.1, rb.2))
    else .error .nonMergableRange

/-- The `compile` walk (source lines 78–132): identical control flow to
`walkRoot`, emitting programs instead of digests.  The termination constant
`TREE_HEIGHT` is defined outside `src/` and is modelled from the spec (§4.6)
as `8 * N`. -/
def walkCompile (N : Nat) :
    Nat → TBuf Prog → List (List Nat × Nat) → List (List Nat) → Res Prog
  | 0, _, _, _ => .error (.panicked "fuel exhausted")
  | _ + 1, [], _, _ => .error .corruptedProof
  | fuel + 1, ((height, key), (leafIndex, program)) :: rest, pf, lp =>
    if pf.isEmpty && rest.isEmpty then .ok program
    else if height == 8 * N then
      if !pf.isEmpty then .error .corruptedProof else .ok program
    else if 8 * N ≤ height then .error (.panicked "index out of range")
    else
      let siblingKey := siblingKeyOf key height
      if rest.head?.map Prod.fst == some (height, siblingKey) then
        match rest with
        | [] => .error (.panicked "pop sibling")
        | (_, (_, siblingProgram)) :: rest2 =>
          match merge_program program siblingProgram height with
          | .error e => .error e
          | .ok parentProgram =>
            let parentKey := parent_path key height
            let lp2 := lp.set leafIndex ((lp.getD leafIndex []).tail)
            walkCompile N fuel
              (tbInsert (height + 1, parentKey) (leafIndex, parentProgram) rest2) pf lp2
      else
        let mergeHeight := (lp.getD leafIndex []).headD height
        if height != mergeHeight then
          let parentKey := copy_bits_from key mergeHeight
          walkCompile N fuel (tbInsert (mergeHeight, parentKey) (leafIndex, program) rest) pf lp
        else
          match pf with
          | [] => .error (.panicked "pop proof")
          | (pnode, pheight) :: pfRest =>
            let height2 := if height < pheight then pheight else height
            let parentKey := parent_path key height2
            let parentProgram := proof_program program pnode height2
            let lp2 := lp.set leafIndex ((lp.getD leafIndex []).tail)
            walkCompile N fuel
              (tbInsert (height2 + 1, parentKey) (leafIndex, parentProgram) rest) pfRest lp2

/-- `MerkleProof::compile` (source lines 49–135), kept with the final
program's full state (bytes and covered leaf range); the source returns only
the bytes — see `compile`. -/
def compileFull (N : Nat) (p : MerkleProof) (leaves : List (TreeKey × List Nat)) :
    Res Prog :=
  if leaves.isEmpty then .error .emptyKeys
  else if leaves.length != p.leaves_path.length then
    .error (.incorrectNumberOfLeaves p.leaves_path.length leaves.length)
  else
    let sorted := sortByKey leaves
    let tb := buildTB (sorted.enum.map fun ikv => ((0, ikv.2.1), (ikv.1, leaf_program ikv.1)))
    walkCompile N (rootFuel tb.length p.proof.length p.leaves_path) tb p.proof p.leaves_path

/-- `MerkleProof::compile`: the emitted `CompiledMerkleProof` byte vector. -/
def compile (N : Nat) (p : MerkleProof) (leaves : List (TreeKey × List Nat)) :
    Res (List Nat) :=
  match compileFull N p leaves with
  | .error e => .error e
  | .ok prog => .ok prog.1

/-! ### The `CompiledMerkleProof` stack machine -/

/-- `u64::from_be_bytes` on a byte list. -/
def fromBE8 (bs : List Nat) : Nat :=
  bs.foldl (fun acc b => acc * 256 + b) 0

/-- The instruction loop of `CompiledMerkleProof::compute_root` (source
lines 333–408): state is the remaining program bytes, the stack of
`(key, digest)` pairs (head = top), and the index of the next leaf to
consume.  The loop consumes at least one byte per iteration, so the fuel
index (set to the program length by the caller) never runs out.
Out-of-range `get_bit` calls and the `H` opcode's slicing of a truncated
8-byte operand are modelled as panic outcomes, as in the source they abort
the program. -/
def vmExec (hashH : List Nat → List Nat) (N : Nat) (leaves : List (TreeKey × List Nat)) :
    Nat → List Nat → List (TreeKey × List Nat) → Nat →
    Res (List (TreeKey × List Nat) × Nat)
  | _, [], stack, leafIdx => .ok (stack, leafIdx)
  | 0, _ :: _, _, _ => .error (.panicked "fuel exhausted")
  | fuel + 1, code :: restBytes, stack, leafIdx =>
    if code == 0x4C then
      if leaves.length ≤ leafIdx then .error .corruptedStack
      else
        let kv := leaves.getD leafIdx ([], [])
        vmExec hashH N leaves fuel restBytes
          ((kv.1, hash_leaf hashH kv.1 kv.2) :: stack) (leafIdx + 1)
    else if code == 0x50 then
      if stack.isEmpty then .error .corruptedStack
      else if restBytes.length < 40 then .error .corruptedProof
      else
        let height := fromBE8 (restBytes.take 8)
        let data := (restBytes.drop 8).take 32
        match stack with
        | [] => .error (.panicked "unwrap on None")
        | (key, value) :: stack2 =>
          let parentKey := parent_path key height
          if 8 * N ≤ height then .error (.panicked "index out of range")
          else
            let parent := if get_bit key height then merge hashH data value
              else merge hashH value data
            vmExec hashH N leaves fuel (restBytes.drop 40) ((parentKey, parent) :: stack2) leafIdx
    else if code == 0x48 then
      if stack.length < 2 then .error .corruptedStack
      else if restBytes.isEmpty then .error .corruptedProof
      else if restBytes.length < 8 then .error (.panicked "slice out of range")
      else
        let height := fromBE8 (restBytes.take 8)
        match stack with
        | (keyB, valueB) :: (keyA, valueA) :: stack2 =>
          if 8 * N ≤ height then .error (.panicked "index out of range")
          else
            let parentKeyA := copy_bits_from keyA height
            let parentKeyB := copy_bits_from keyB height
            let aSet := get_bit keyA height
            let bSet := get_bit keyB height
            let siblingKeyA := if !aSet then set_bit parentKeyA height else parentKeyA
            if !(siblingKeyA == parentKeyB && (aSet ^^ bSet)) then .error .nonSiblings
            else
              let parent := if aSet then merge hashH valueB valueA
                else merge hashH valueA valueB
              vmExec hashH N leaves fuel (restBytes.drop 8) ((parentKeyA, parent) :: stack2) leafIdx
        | _ => .error (.panicked "unwrap on None")
    else .error (.invalidCode code)

/-- `CompiledMerkleProof::compute_root` (source lines 321–413): sort the
leaves, run the program on an empty stack, and require a final stack of
exactly one entry, whose digest is the root. -/
def compiled_compute_root (hashH : List Nat → List Nat) (N : Nat) (program : List Nat)
    (leaves : List (TreeKey × List Nat)) : Res (List Nat) :=
  let sorted := sortByKey leaves
  match vmExec hashH N sorted program.length program [] 0 with
  | .error e => .error e
  | .ok (stack, _) =>
    match stack with
    | [(_, v)] => .ok v
    | _ => .error .corruptedStack

/-- `CompiledMerkleProof::verify` (source lines 415–427). -/
def compiled_verify (hashH : List Nat → List Nat) (N : Nat) (program : List Nat)
    (root : List Nat) (leaves : List (TreeKey × List Nat)) : Res Bool :=
  match compiled_compute_root hashH N program leaves with
  | .error e => .error e
  | .ok calculated => .ok (calculated == root)

/-- C3: refuted — an `H` opcode with a truncated height operand (1–7
remaining bytes) panics on the out-of-bounds slice
`self.0[program_index..program_index + 8]` instead of returning
`CorruptedProof` (the branch only guards `program_index >= len`, catching
zero remaining bytes).  Every other error path of the claim behaves as
stated (see `vm_error_paths`). -/
theorem vm_H_truncated_operand_panics :
    compiled_compute_root padHash 1 [0x4C, 0x4C, 0x48, 0x00]
      [([0], List.replicate 32 5), ([1], List.replicate 32 9)] =
      .error (.panicked "slice out of range") := by rfl

/-- The VM error paths of C3 that the code does implement as claimed:
unknown opcodes give `InvalidCode(byte)`, a `P` with a non-empty stack and
fewer than 40 trailing bytes gives `CorruptedProof`, an `H` with no trailing
bytes gives `CorruptedProof`, popping from an insufficient stack gives
`CorruptedStack`, and a final stack of size other than one gives
`CorruptedStack`. -/
theorem vm_error_paths (hashH : List Nat → List Nat) (N fuel : Nat)
    (leaves : List (TreeKey × List Nat)) (code : Nat) (restBytes : List Nat)
    (stack : List (TreeKey × List Nat)) (leafIdx : Nat) :
    (code ≠ 0x4C → code ≠ 0x50 → code ≠ 0x48 →
      vmExec hashH N leaves (fuel + 1) (code :: restBytes) stack leafIdx =
        .error (.invalidCode code)) ∧
    (stack ≠ [] → restBytes.length < 40 →
      vmExec hashH N leaves (fuel + 1) (0x50 :: restBytes) stack leafIdx =
        .error .corruptedProof) ∧
    (vmExec hashH N leaves (fuel + 1) (0x48 :: []) stack leafIdx =
      if stack.length < 2 then .error .corruptedStack else .error .corruptedProof) ∧
    (stack = [] →
      vmExec hashH N leaves (fuel + 1) (0x50 :: restBytes) stack leafIdx =
        .error .corruptedStack) ∧
    (stack.length < 2 →
      vmExec hashH N leaves (fuel + 1) (0x48 :: restBytes) stack leafIdx =
        .error .corruptedStack) ∧
    (leaves.length ≤ leafIdx →
      vmExec hashH N leaves (fuel + 1) (0x4C :: restBytes) stack leafIdx =
        .error .corruptedStack) ∧
    (∀ stack2, vmExec hashH N leaves fuel [] stack2 leafIdx = .ok (stack2, leafIdx)) ∧
    (∀ program stack2 li,
      vmExec hashH N (sortByKey leaves) program.length program [] 0 = .ok (stack2, li) →
      stack2.length ≠ 1 →
      compiled_compute_root hashH N program leaves = .error .corruptedStack) := by
  refine ⟨?_, ?_, ?_, ?_, ?_, ?_, fun _ => by cases fuel <;> rfl, ?_⟩
  · intro h1 h2 h3
    have b1 : (code == 0x4C) = false := beq_eq_false_iff_ne.mpr h1
    have b2 : (code == 0x50) = false := beq_eq_false_iff_ne.mpr h2
    have b3 : (code == 0x48) = false := beq_eq_false_iff_ne.mpr h3
    simp only [vmExec, b1, b2, b3, Bool.false_eq_true, if_false]
  · intro hs hlen
    have hne : stack.isEmpty = false := by
      cases stack with
      | nil => exact absurd rfl hs
      | cons a b => rfl
    simp only [vmExec, hne, if_pos hlen, Bool.false_eq_true, if_false, ite_true,
      Nat.reduceBEq]
  · by_cases h2 : stack.length < 2
    · simp only [vmExec, if_pos h2, if_pos h2, Nat.reduceBEq, Bool.false_eq_true, if_false,
        ite_true]
    · simp only [vmExec, if_neg h2, List.isEmpty_nil, Nat.reduceBEq, Bool.false_eq_true,
        if_false, ite_true, if_pos rfl]
  · intro hs
    subst hs
    simp only [vmExec, List.isEmpty_nil, Nat.reduceBEq, Bool.false_eq_true, if_false,
      ite_true, ite_false]
  · intro h2
    simp only [vmExec, if_pos h2, Nat.reduceBEq, Bool.false_eq_true, if_false, ite_true]
  · intro hle
    simp only [vmExec, if_pos hle, Nat.reduceBEq, Bool.false_eq_true, if_false, ite_true]
  · intro program stack2 li hvm hlen
    simp only [compiled_compute_root]
    rw [hvm]
    match stack2, hlen with
    | [], _ => rfl
    | [(k, v)], h => exact absurd rfl h
    | (k1, v1) :: (k2, v2) :: s2, _ => rfl

/-- C7: both `compute_root` and `compile` reject an empty leaves list with
`EmptyKeys`, and a non-empty list whose length differs from
`leaves_path.len()` with `IncorrectNumberOfLeaves { expected, actual }`,
before any reconstruction work. -/
theorem leaves_count_checks (hashH : List Nat → List Nat) (N : Nat) (p : MerkleProof)
    (leaves : List (TreeKey × List Nat)) :
    (leaves = [] →
      compute_root hashH N p leaves = .error .emptyKeys ∧
      compile N p leaves = .error .emptyKeys) ∧
    (leaves ≠ [] → leaves.length ≠ p.leaves_path.length →
      compute_root hashH N p leaves =
          .error (.incorrectNumberOfLeaves p.leaves_path.length leaves.length) ∧
        compile N p leaves =
          .error (.incorrectNumberOfLeaves p.leaves_path.length leaves.length)) := by
  constructor
  · rintro rfl
    constructor
    · simp [compute_root]
    · simp [compile, compileFull]
  · intro hne hlen
    have hempty : leaves.isEmpty = false := by
      cases leaves with
      | nil => exact absurd rfl hne
      | cons a l => rfl
    have hbne : (leaves.length != p.leaves_path.length) = true := bne_iff_ne.mpr hlen
    constructor
    · simp only [compute_root, hempty, Bool.false_eq_true, if_false, hbne, if_true]
    · simp only [compile, compileFull, hempty, Bool.false_eq_true, if_false, hbne, if_true]

/-- Closed instance of `leaves_count_checks`. -/
theorem leaves_count_checks_witness :
    compute_root padHash 1 ⟨[[]], []⟩ [] = .error .emptyKeys ∧
    compile 1 ⟨[[], []], []⟩ [([0], [1])] = .error (.incorrectNumberOfLeaves 2 1) :=
  ⟨((leaves_count_checks padHash 1 ⟨[[]], []⟩ []).1 rfl).1,
   ((leaves_count_checks padHash 1 ⟨[[], []], []⟩ [([0], [1])]).2 (by simp) (by simp)).2⟩

/-- C8: both `MerkleProof::verify` and `CompiledMerkleProof::verify` return
`Ok(true)` exactly when the corresponding `compute_root` succeeds with the
claimed root, `Ok(false)` when it succeeds with a different digest, and
propagate its error unchanged. -/
theorem verify_spec (hashH : List Nat → List Nat) (N : Nat) (p : MerkleProof)
    (program root : List Nat) (leaves : List (TreeKey × List Nat)) :
    ((verify hashH N p root leaves = .ok true ↔
        compute_root hashH N p leaves = .ok root) ∧
      (∀ r, compute_root hashH N p leaves = .ok r → r ≠ root →
        verify hashH N p root leaves = .ok false) ∧
      (∀ e, compute_root hashH N p leaves = .error e →
        verify hashH N p root leaves = .error e)) ∧
    ((compiled_verify hashH N program root leaves = .ok true ↔
        compiled_compute_root hashH N program leaves = .ok root) ∧
      (∀ r, compiled_compute_root hashH N program leaves = .ok r → r ≠ root →
        compiled_verify hashH N program root leaves = .ok false) ∧
      (∀ e, compiled_compute_root hashH N program leaves = .error e →
        compiled_verify hashH N program root leaves = .error e)) := by
  constructor
  · refine ⟨?_, ?_, ?_⟩
    · unfold verify
      cases hcr : compute_root hashH N p leaves with
      | error e => simp
      | ok r =>
        simp only [Except.ok.injEq]
        constructor
        · intro h
          have : (r == root) = true := h
          rw [beq_iff_eq] at this
          exact this
        · intro h
          rw [h, beq_self_eq_true]
    · intro r hcr hne
      unfold verify
      rw [hcr]
      have hb : (r == root) = false := beq_eq_false_iff_ne.mpr hne
      show (Except.ok (r == root) : Res Bool) = .ok false
      rw [hb]
    · intro e hcr
      unfold verify
      rw [hcr]
  · refine ⟨?_, ?_, ?_⟩
    · unfold compiled_verify
      cases hcr : compiled_compute_root hashH N program leaves with
      | error e => simp
      | ok r =>
        simp only [Except.ok.injEq]
        constructor
        · intro h
          have : (r == root) = true := h
          rw [beq_iff_eq] at this
          exact this
        · intro h
          rw [h, beq_self_eq_true]
    · intro r hcr hne
      unfold compiled_verify
      rw [hcr]
      have hb : (r == root) = false := beq_eq_false_iff_ne.mpr hne
      show (Except.ok (r == root) : Res Bool) = .ok false
      rw [hb]
    · intro e hcr
      unfold compiled_verify
      rw [hcr]

/-- Closed instance of `verify_spec`: a structured verify of a wrong root
returns `Ok(false)`, and a compiled verify of an error-producing program
propagates the error. -/
theorem verify_spec_witness :
    verify padHash 1 ⟨[[]], []⟩ zero32 [([0], List.replicate 32 5)] = .ok false ∧
    compiled_verify padHash 1 [0] zero32 [([0], List.replicate 32 5)] =
      .error (.invalidCode 0) :=
  ⟨(verify_spec padHash 1 ⟨[[]], []⟩ [0] zero32 [([0], List.replicate 32 5)]).1.2.1
      (hash_leaf padHash [0] (List.replicate 32 5)) rfl (by decide),
   (verify_spec padHash 1 ⟨[[]], []⟩ [0] zero32 [([0], List.replicate 32 5)]).2.2.2
      (.invalidCode 0) rfl⟩

/-! ### Value independence of `compile` (C10) -/

lemma map_fst_insertSorted {α β : Type} (x : TreeKey × α) (y : TreeKey × β)
    (l1 : List (TreeKey × α)) (l2 : List (TreeKey × β))
    (hxy : x.1 = y.1) (h : l1.map Prod.fst = l2.map Prod.fst) :
    (insertSorted keyLe x l1).map Prod.fst = (insertSorted keyLe y l2).map Prod.fst := by
  induction l1 generalizing l2 with
  | nil =>
    cases l2 with
    | nil => simp [insertSorted, hxy]
    | cons b l2' => simp at h
  | cons a l1' ih =>
    cases l2 with
    | nil => simp at h
    | cons b l2' =>
      simp only [List.map_cons, List.cons.injEq] at h
      obtain ⟨hab, htail⟩ := h
      have hle : keyLe x a = keyLe y b := by
        unfold keyLe; rw [hxy, hab]
      simp only [insertSorted, hle]
      cases hyb : keyLe y b with
      | true =>
        simp only [if_true, List.map_cons, hxy, hab, htail]
      | false =>
        simp only [Bool.false_eq_true, if_false, List.map_cons, hab]
        rw [ih l2' htail]

lemma map_fst_sortByKey {α β : Type} (l1 : List (TreeKey × α)) (l2 : List (TreeKey × β))
    (h : l1.map Prod.fst = l2.map Prod.fst) :
    (sortByKey l1).map Prod.fst = (sortByKey l2).map Prod.fst := by
  induction l1 generalizing l2 with
  | nil =>
    cases l2 with
    | nil => rfl
    | cons b l2' => simp at h
  | cons a l1' ih =>
    cases l2 with
    | nil => simp at h
    | cons b l2' =>
      simp only [List.map_cons, List.cons.injEq] at h
      simp only [sortByKey, List.foldr_cons]
      exact map_fst_insertSorted a b _ _ h.1 (ih l2' h.2)

lemma enumFrom_map_key_eq {α β : Type} (s1 : List (TreeKey × α)) (s2 : List (TreeKey × β))
    (h : s1.map Prod.fst = s2.map Prod.fst) (n : Nat) :
    (List.enumFrom n s1).map (fun ikv => ((0, ikv.2.1), (ikv.1, leaf_program ikv.1))) =
    (List.enumFrom n s2).map (fun ikv => ((0, ikv.2.1), (ikv.1, leaf_program ikv.1))) := by
  induction s1 generalizing s2 n with
  | nil =>
    cases s2 with
    | nil => rfl
    | cons b s2' => simp at h
  | cons a s1' ih =>
    cases s2 with
    | nil => simp at h
    | cons b s2' =>
      simp only [List.map_cons, List.cons.injEq] at h
      simp only [List.enumFrom, List.map_cons, h.1]
      rw [ih s2' h.2 (n + 1)]

/-- C10: the bytecode emitted by `MerkleProof::compile` is independent of the
values paired with the keys: two leaves vectors with identical key sequences
compile to identical results (identical bytes, or the identical error). -/
theorem compile_value_independent (N : Nat) (p : MerkleProof)
    (l1 l2 : List (TreeKey × List Nat)) (hk : l1.map Prod.fst = l2.map Prod.fst) :
    compile N p l1 = compile N p l2 := by
  have hlen : l1.length = l2.length := by
    have h2 := congrArg List.length hk
    simpa using h2
  have hempty : l1.isEmpty = l2.isEmpty := by
    cases l1 with
    | nil => cases l2 with
      | nil => rfl
      | cons b t => simp at hk
    | cons a t => cases l2 with
      | nil => simp at hk
      | cons b t2 => rfl
  have htb : ((sortByKey l1).enum.map fun ikv => ((0, ikv.2.1), (ikv.1, leaf_program ikv.1))) =
      ((sortByKey l2).enum.map fun ikv => ((0, ikv.2.1), (ikv.1, leaf_program ikv.1))) :=
    enumFrom_map_key_eq _ _ (map_fst_sortByKey l1 l2 hk) 0
  have hfull : compileFull N p l1 = compileFull N p l2 := by
    simp only [compileFull, hlen, hempty, htb]
  unfold compile
  rw [hfull]

/-- Closed instance of `compile_value_independent` at two value assignments
of the same keys. -/
theorem compile_value_independent_witness :
    compile 1 ⟨[[0], [0]], []⟩ [([0], List.replicate 32 5), ([1], List.replicate 32 9)] =
      compile 1 ⟨[[0], [0]], []⟩ [([0], zero32), ([1], [7])] :=
  compile_value_independent 1 ⟨[[0], [0]], []⟩ _ _ rfl

/-! ### The `H` opcode's sibling check (C4) -/

lemma fromBE8_be64 (h : Nat) (hh : h < 2 ^ 64) : fromBE8 (be64 h) = h := by
  simp only [fromBE8, be64, List.foldl_cons, List.foldl_nil]
  omega

lemma take8_be64_append (h : Nat) (rest : List Nat) :
    (be64 h ++ rest).take 8 = be64 h := by
  rw [show (8 : Nat) = (be64 h).length from rfl]
  exact List.take_left _ _

lemma drop8_be64_append (h : Nat) (rest : List Nat) :
    (be64 h ++ rest).drop 8 = rest := by
  rw [show (8 : Nat) = (be64 h).length from rfl]
  exact List.drop_left _ _

/-- The boolean sibling test of the `H` opcode holds exactly when the two
keys agree strictly above `height`, the second-popped key `a` has bit
`height` clear, and the first-popped key `b` has it set. -/
lemma vm_H_check_iff (ka kb : TreeKey) (h N : Nat)
    (hlen_a : ka.length = N) (hlen_b : kb.length = N)
    (hba : ∀ x ∈ ka, x < 256) (hbb : ∀ x ∈ kb, x < 256) (hh : h < 8 * N) :
    (((if !(get_bit ka h) then set_bit (copy_bits_from ka h) h else copy_bits_from ka h) ==
        copy_bits_from kb h) && (get_bit ka h ^^ get_bit kb h)) = true ↔
    ((∀ i, h < i → i < 8 * N → get_bit ka i = get_bit kb i) ∧
      get_bit ka h = false ∧ get_bit kb h = true) := by
  have hca : (copy_bits_from ka h).length = N := by rw [length_copy_bits_from, hlen_a]
  have hcb : (copy_bits_from kb h).length = N := by rw [length_copy_bits_from, hlen_b]
  constructor
  · intro hand
    rw [Bool.and_eq_true] at hand
    obtain ⟨hkeq, hxor⟩ := hand
    have haF : get_bit ka h = false := by
      by_contra habs
      rw [Bool.not_eq_false] at habs
      rw [habs, Bool.not_true, if_neg (by simp)] at hkeq
      rw [beq_iff_eq] at hkeq
      have hbit := congrArg (fun k => get_bit k h) hkeq
      simp only at hbit
      rw [get_bit_copy_bits_from ka h h (by omega),
        get_bit_copy_bits_from kb h h (by omega)] at hbit
      rw [habs] at hbit
      simp only [decide_eq_true (le_refl h), Bool.true_and] at hbit
      rw [habs, ← hbit] at hxor
      simp at hxor
    have hbT : get_bit kb h = true := by
      rw [haF] at hxor
      simpa using hxor
    refine ⟨?_, haF, hbT⟩
    intro i hi hi8
    rw [haF, Bool.not_false, if_pos rfl, beq_iff_eq] at hkeq
    have hbit := congrArg (fun k => get_bit k i) hkeq
    simp only at hbit
    rw [get_bit_set_bit _ i h (by omega) (by omega),
      get_bit_copy_bits_from ka h i (by omega),
      get_bit_copy_bits_from kb h i (by omega)] at hbit
    have hih : (i == h) = false := by simp; omega
    rw [hih] at hbit
    simp only [Bool.false_or, decide_eq_true (by omega : h ≤ i), Bool.true_and] at hbit
    exact hbit
  · rintro ⟨habove, haF, hbT⟩
    rw [haF, Bool.not_false, if_pos rfl]
    have hkeq : set_bit (copy_bits_from ka h) h = copy_bits_from kb h := by
      apply key_ext
      · rw [length_set_bit, hca, hcb]
      · exact bytes_lt_set_bit (bytes_lt_copy_bits_from _ hba)
      · exact bytes_lt_copy_bits_from _ hbb
      · intro i hi
        rw [length_set_bit, hca] at hi
        rw [get_bit_set_bit _ i h (by omega) (by omega),
          get_bit_copy_bits_from ka h i (by omega),
          get_bit_copy_bits_from kb h i (by omega)]
        by_cases hih : i = h
        · subst hih
          rw [hbT]
          simp
        · have hb : (i == h) = false := by simp [hih]
          rw [hb, Bool.false_or]
          by_cases hle : h ≤ i
          · have hgt : h < i := by omega
            rw [habove i hgt hi]
          · have : ¬ h ≤ i := hle
            simp [this]
    rw [hkeq, beq_self_eq_true, Bool.true_and, hbT]
    rfl

/-- C4 counterexample: with two stack entries that are genuine sibling
halves at height `0` (keys `0x01` and `0x00`: they agree on every bit above
`0` and exactly one has bit `0` set) but with the set bit carried by the
*second-popped* operand `a`, the `H` opcode rejects with `NonSiblings`
instead of pushing the merged parent as the claim states. -/
theorem vm_H_rejects_siblings_with_set_bit_on_a :
    (∀ i, 0 < i → i < 8 → get_bit [1] i = get_bit [0] i) ∧
    get_bit [1] 0 ≠ get_bit [0] 0 ∧
    compiled_compute_root padHash 1
      ([0x4C, 0x4C, 0x50] ++ be64 1 ++ List.replicate 32 7 ++ [0x48] ++ be64 0)
      [([1], List.replicate 32 5), ([2], List.replicate 32 9)] =
      .error .nonSiblings := by
  refine ⟨fun i h1 h2 => ?_, by decide, by rfl⟩
  interval_cases i <;> rfl

/-- C4 amended: when the VM executes an `H` opcode with at least two stack
entries and a complete height operand (with the height in range), it pushes
the merged parent exactly when the two popped nodes' keys agree on every bit
strictly above the height, the second-popped key `a` has bit `height`
*clear*, and the first-popped key `b` has it *set*; in every other case —
including genuine siblings whose set bit is carried by `a` — it returns
`NonSiblings`. -/
theorem vm_H_step_spec (hashH : List Nat → List Nat) (N : Nat)
    (leaves : List (TreeKey × List Nat)) (fuel : Nat) (progRest : List Nat)
    (h : Nat) (ka kb va vb : List Nat) (stack2 : List (TreeKey × List Nat))
    (leafIdx : Nat) (hlen_a : ka.length = N) (hlen_b : kb.length = N)
    (hba : ∀ x ∈ ka, x < 256) (hbb : ∀ x ∈ kb, x < 256)
    (hh : h < 8 * N) (hh64 : h < 2 ^ 64) :
    ((∀ i, h < i → i < 8 * N → get_bit ka i = get_bit kb i) ∧
        get_bit ka h = false ∧ get_bit kb h = true →
      vmExec hashH N leaves (fuel + 1) (0x48 :: (be64 h ++ progRest))
          ((kb, vb) :: (ka, va) :: stack2) leafIdx =
        vmExec hashH N leaves fuel progRest
          ((copy_bits_from ka h, merge hashH va vb) :: stack2) leafIdx) ∧
    (¬ ((∀ i, h < i → i < 8 * N → get_bit ka i = get_bit kb i) ∧
        get_bit ka h = false ∧ get_bit kb h = true) →
      vmExec hashH N leaves (fuel + 1) (0x48 :: (be64 h ++ progRest))
          ((kb, vb) :: (ka, va) :: stack2) leafIdx = .error .nonSiblings) := by
  have hstep : vmExec hashH N leaves (fuel + 1) (0x48 :: (be64 h ++ progRest))
      ((kb, vb) :: (ka, va) :: stack2) leafIdx =
      (if !(((if !(get_bit ka h) then set_bit (copy_bits_from ka h) h
              else copy_bits_from ka h) == copy_bits_from kb h) &&
            (get_bit ka h ^^ get_bit kb h))
        then .error .nonSiblings
        else vmExec hashH N leaves fuel progRest
          ((copy_bits_from ka h,
            if get_bit ka h then merge hashH vb va else merge hashH va vb) :: stack2)
          leafIdx) := by
    have hempty : ((be64 h ++ progRest).isEmpty) = false := rfl
    have hlen8 : ¬ ((be64 h ++ progRest).length < 8) := by
      rw [List.length_append]
      have : (be64 h).length = 8 := rfl
      omega
    have hlen2 : ¬ (((kb, vb) :: (ka, va) :: stack2 :
        List (TreeKey × List Nat)).length < 2) := by
      simp
    simp only [vmExec, Nat.reduceBEq, Bool.false_eq_true, if_false, ite_true,
      if_neg hlen2, hempty, if_neg hlen8, take8_be64_append, fromBE8_be64 h hh64,
      drop8_be64_append, if_neg (by omega : ¬ 8 * N ≤ h)]
  constructor
  · intro hcond
    have hC := (vm_H_check_iff ka kb h N hlen_a hlen_b hba hbb hh).mpr hcond
    rw [hstep, hC, hcond.2.1]
    simp only [Bool.not_true, Bool.false_eq_true, if_false, ite_false]
  · intro hcond
    have hC : (((if !(get_bit ka h) then set_bit (copy_bits_from ka h) h
          else copy_bits_from ka h) == copy_bits_from kb h) &&
        (get_bit ka h ^^ get_bit kb h)) = false :=
      Bool.eq_false_iff.mpr
        (fun habs => hcond ((vm_H_check_iff ka kb h N hlen_a hlen_b hba hbb hh).mp habs))
    rw [hstep, hC]
    simp only [Bool.not_false, if_true, ite_true]

/-- Closed instance of `vm_H_step_spec`: the accepted orientation (`a` clear,
`b` set) merges and pushes the parent. -/
theorem vm_H_step_spec_witness :
    vmExec padHash 1 [] 1 (0x48 :: (be64 0 ++ []))
        [([1], List.replicate 32 9), ([0], List.replicate 32 5)] 0 =
      vmExec padHash 1 [] 0 []
        [(copy_bits_from [0] 0,
          merge padHash (List.replicate 32 5) (List.replicate 32 9))] 0 :=
  (vm_H_step_spec padHash 1 [] 0 [] 0 [0] [1] (List.replicate 32 5)
      (List.replicate 32 9) [] 0 rfl rfl (by decide) (by decide) (by omega)
      (by norm_num)).1
    ⟨fun i h1 h2 => by interval_cases i <;> rfl, rfl, rfl⟩

/-! ### The strict order on work-item keys -/

lemma listLtB_irrefl : ∀ a : List Nat, listLtB a a = false := by
  intro a
  induction a with
  | nil => rfl
  | cons x xs ih => simp [listLtB, ih]

lemma listLtB_asymm : ∀ a b : List Nat, listLtB a b = true → listLtB b a = false := by
  intro a
  induction a with
  | nil =>
    intro b h
    cases b with
    | nil => simp [listLtB] at h
    | cons y ys => rfl
  | cons x xs ih =>
    intro b h
    cases b with
    | nil => simp [listLtB] at h
    | cons y ys =>
      simp only [listLtB] at h ⊢
      rcases Nat.lt_trichotomy x y with hxy | hxy | hxy
      · rw [if_neg (by omega), if_pos hxy]
      · subst hxy
        simp only [Nat.lt_irrefl x, if_false, ite_false] at h ⊢
        exact ih ys h
      · rw [if_neg (by omega), if_pos hxy] at h
        exact absurd h (by simp)

lemma listLtB_trans : ∀ a b c : List Nat,
    listLtB a b = true → listLtB b c = true → listLtB a c = true := by
  intro a
  induction a with
  | nil =>
    intro b c hab hbc
    cases b with
    | nil => simp [listLtB] at hab
    | cons y ys =>
      cases c with
      | nil => simp [listLtB] at hbc
      | cons z zs => rfl
  | cons x xs ih =>
    intro b c hab hbc
    cases b with
    | nil => simp [listLtB] at hab
    | cons y ys =>
      cases c with
      | nil => simp [listLtB] at hbc
      | cons z zs =>
        simp only [listLtB] at hab hbc ⊢
        rcases Nat.lt_trichotomy y x with h1 | h1 | h1
        · rw [if_neg (by omega), if_pos h1] at hab
          exact absurd hab (by simp)
        · subst h1
          simp only [Nat.lt_irrefl, if_false, ite_false] at hab
          rcases Nat.lt_trichotomy z y with h2 | h2 | h2
          · rw [if_neg (by omega), if_pos h2] at hbc
            exact absurd hbc (by simp)
          · subst h2
            simp only [Nat.lt_irrefl, if_false, ite_false] at hbc ⊢
            exact ih ys zs hab hbc
          · rw [if_pos h2]
        · rcases Nat.lt_trichotomy z y with h2 | h2 | h2
          · rw [if_neg (by omega), if_pos h2] at hbc
            exact absurd hbc (by simp)
          · subst h2
            rw [if_pos h1]
          · rw [if_pos (by omega)]

lemma listLtB_total : ∀ a b : List Nat, a.length = b.length → a ≠ b →
    listLtB a b = true ∨ listLtB b a = true := by
  intro a
  induction a with
  | nil =>
    intro b hlen hne
    cases b with
    | nil => exact absurd rfl hne
    | cons y ys => simp at hlen
  | cons x xs ih =>
    intro b hlen hne
    cases b with
    | nil => simp at hlen
    | cons y ys =>
      simp only [listLtB]
      rcases Nat.lt_trichotomy x y with h1 | h1 | h1
      · left; rw [if_pos h1]
      · subst h1
        simp only [Nat.lt_irrefl, if_false, ite_false]
        have hne' : xs ≠ ys := fun h => hne (by rw [h])
        exact ih ys (by simpa using hlen) hne'
      · right; rw [if_pos h1]

lemma hkLt_irrefl (x : Nat × TreeKey) : hkLt x x = false := by
  simp [hkLt, listLtB_irrefl]

lemma hkLt_asymm (x y : Nat × TreeKey) (h : hkLt x y = true) : hkLt y x = false := by
  unfold hkLt at h ⊢
  rcases Nat.lt_trichotomy x.1 y.1 with h1 | h1 | h1
  · rw [if_neg (by omega), if_pos h1]
  · rw [h1] at h ⊢
    simp only [Nat.lt_irrefl, if_false, ite_false] at h ⊢
    exact listLtB_asymm _ _ h
  · rw [if_neg (by omega), if_pos h1] at h
    exact absurd h (by simp)

lemma hkLt_trans (x y z : Nat × TreeKey) (h1 : hkLt x y = true) (h2 : hkLt y z = true) :
    hkLt x z = true := by
  unfold hkLt at h1 h2 ⊢
  rcases Nat.lt_trichotomy y.1 x.1 with ha | ha | ha
  · rw [if_neg (by omega), if_pos ha] at h1
    exact absurd h1 (by simp)
  · rw [if_neg (by omega), if_neg (by omega)] at h1
    rcases Nat.lt_trichotomy z.1 y.1 with hb | hb | hb
    · rw [if_neg (by omega), if_pos hb] at h2
      exact absurd h2 (by simp)
    · rw [if_neg (by omega), if_neg (by omega)] at h2
      rw [if_neg (by omega), if_neg (by omega)]
      exact listLtB_trans _ _ _ h1 h2
    · rw [if_pos (by omega)]
  · rcases Nat.lt_trichotomy z.1 y.1 with hb | hb | hb
    · rw [if_neg (by omega), if_pos hb] at h2
      exact absurd h2 (by simp)
    · rw [if_pos (by omega)]
    · rw [if_pos (by omega)]

lemma hkLt_total (x y : Nat × TreeKey) (hlen : x.2.length = y.2.length) (hne : x ≠ y) :
    hkLt x y = true ∨ hkLt y x = true := by
  unfold hkLt
  rcases Nat.lt_trichotomy x.1 y.1 with h1 | h1 | h1
  · left; rw [if_pos h1]
  · rw [h1]
    simp only [Nat.lt_irrefl, if_false, ite_false]
    have hne2 : x.2 ≠ y.2 := by
      intro habs
      exact hne (Prod.ext h1 habs)
    exact listLtB_total _ _ hlen hne2
  · right; rw [if_pos h1]

lemma hkLt_same_height (h : Nat) (a b : TreeKey) : hkLt (h, a) (h, b) = listLtB a b := by
  simp [hkLt]

lemma get_bit_cons_low (x : Nat) (xs : List Nat) (i : Nat) (hi : i < 8 * xs.length) :
    get_bit (x :: xs) i = get_bit xs i := by
  unfold get_bit
  simp only [List.length_cons]
  have hpos : xs.length + 1 - 1 - i / 8 = (xs.length - 1 - i / 8) + 1 := by omega
  rw [hpos, List.getD_cons_succ]

lemma get_bit_cons_high (x : Nat) (xs : List Nat) (p : Nat) (hp : p < 8) :
    get_bit (x :: xs) (8 * xs.length + p) = Nat.testBit x p := by
  unfold get_bit
  simp only [List.length_cons]
  have hpos : xs.length + 1 - 1 - (8 * xs.length + p) / 8 = 0 := by omega
  have hmod : (8 * xs.length + p) % 8 = p := by omega
  rw [hpos, hmod, List.getD_cons_zero]

/-- The byte-array lexicographic order agrees with the big-endian bit order:
if the two keys agree on every bit above `i0` and differ at `i0` with `a`
clear there, then `a` sorts strictly below `b`. -/
lemma listLtB_of_bits : ∀ (a b : List Nat), a.length = b.length →
    (∀ x ∈ a, x < 256) → (∀ x ∈ b, x < 256) →
    ∀ i0, i0 < 8 * a.length → get_bit a i0 = false → get_bit b i0 = true →
    (∀ j, i0 < j → j < 8 * a.length → get_bit a j = get_bit b j) →
    listLtB a b = true := by
  intro a
  induction a with
  | nil =>
    intro b hlen ha hb i0 hi0
    simp at hi0
  | cons x xs ih =>
    intro b hlen ha hb i0 hi0 haf hbt habove
    cases b with
    | nil => simp at hlen
    | cons y ys =>
      have hlen' : xs.length = ys.length := by simpa using hlen
      by_cases hcase : i0 < 8 * xs.length
      · -- the differing bit is in the tail: head bytes agree
        have hxy : x = y := by
          apply Nat.eq_of_testBit_eq
          intro p
          rcases Nat.lt_or_ge p 8 with hp | hp
          · have hj := habove (8 * xs.length + p) (by omega)
              (by simp only [List.length_cons]; omega)
            rw [get_bit_cons_high x xs p hp] at hj
            rw [show (8 * xs.length + p) = (8 * ys.length + p) by omega] at hj
            rw [get_bit_cons_high y ys p hp] at hj
            exact hj
          · rw [Nat.testBit_lt_two_pow, Nat.testBit_lt_two_pow]
            · calc y < 256 := hb y (by simp)
                _ = 2 ^ 8 := rfl
                _ ≤ 2 ^ p := Nat.pow_le_pow_right (by omega) hp
            · calc x < 256 := ha x (by simp)
                _ = 2 ^ 8 := rfl
                _ ≤ 2 ^ p := Nat.pow_le_pow_right (by omega) hp
        subst hxy
        simp only [listLtB, Nat.lt_irrefl, if_false, ite_false]
        apply ih ys hlen' (fun z hz => ha z (by simp [hz])) (fun z hz => hb z (by simp [hz]))
          i0 hcase
        · rw [← get_bit_cons_low x xs i0 hcase]; exact haf
        · rw [show ys = ys from rfl] at hbt
          rw [← get_bit_cons_low x ys i0 (by omega)]
          exact hbt
        · intro j hj hj8
          have hja := habove j hj (by simp only [List.length_cons]; omega)
          rw [get_bit_cons_low x xs j hj8, get_bit_cons_low x ys j (by omega)] at hja
          exact hja
      · -- the differing bit is in the head byte
        have hp8 : i0 - 8 * xs.length < 8 := by
          simp only [List.length_cons] at hi0; omega
        have hi0eq : i0 = 8 * xs.length + (i0 - 8 * xs.length) := by omega
        have hxy : x < y := by
          apply Nat.lt_of_testBit (i0 - 8 * xs.length)
          · rw [← get_bit_cons_high x xs _ hp8, ← hi0eq]; exact haf
          · rw [← get_bit_cons_high y ys _ (by omega)]
            rw [show 8 * ys.length + (i0 - 8 * xs.length) = i0 by omega]
            exact hbt
          · intro j hj
            rcases Nat.lt_or_ge j 8 with hj8 | hj8
            · have hja := habove (8 * xs.length + j) (by omega)
                (by simp only [List.length_cons]; omega)
              rw [get_bit_cons_high x xs j hj8] at hja
              rw [show (8 * xs.length + j) = (8 * ys.length + j) by omega] at hja
              rw [get_bit_cons_high y ys j hj8] at hja
              exact hja
            · rw [Nat.testBit_lt_two_pow, Nat.testBit_lt_two_pow]
              · calc y < 256 := hb y (by simp)
                  _ = 2 ^ 8 := rfl
                  _ ≤ 2 ^ j := Nat.pow_le_pow_right (by omega) hj8
              · calc x < 256 := ha x (by simp)
                  _ = 2 ^ 8 := rfl
                  _ ≤ 2 ^ j := Nat.pow_le_pow_right (by omega) hj8
        simp only [listLtB, if_pos hxy]

/-! ### Properties of the sorted working buffer -/

/-- The working buffer invariant: entries strictly increase in `(height, key)`
order, so the head is the `BTreeMap` minimum. -/
def TBSorted {α : Type} (tb : TBuf α) : Prop :=
  tb.Pairwise (fun e1 e2 => hkLt e1.1 e2.1 = true)

lemma mem_tbInsert {α : Type} (key : Nat × TreeKey) (val : Nat × α) :
    ∀ (tb : TBuf α) e, e ∈ tbInsert key val tb → e = (key, val) ∨ e ∈ tb := by
  intro tb
  induction tb with
  | nil =>
    intro e he
    simp only [tbInsert, List.mem_singleton] at he
    exact Or.inl he
  | cons x xs ih =>
    intro e he
    simp only [tbInsert] at he
    split at he
    · rcases List.mem_cons.mp he with he | he
      · exact Or.inl he
      · exact Or.inr he
    · split at he
      · rcases List.mem_cons.mp he with he | he
        · exact Or.inl he
        · exact Or.inr (by simp [he])
      · rcases List.mem_cons.mp he with he | he
        · exact Or.inr (by simp [he])
        · rcases ih e he with h | h
          · exact Or.inl h
          · exact Or.inr (by simp [h])

lemma tbInsert_sorted {α : Type} (key : Nat × TreeKey) (val : Nat × α) :
    ∀ (tb : TBuf α), TBSorted tb →
    (∀ e ∈ tb, e.1.2.length = key.2.length) →
    TBSorted (tbInsert key val tb) := by
  intro tb
  induction tb with
  | nil =>
    intro _ _
    exact List.pairwise_singleton _ _
  | cons x xs ih =>
    intro hsort hlen
    rw [TBSorted, List.pairwise_cons] at hsort
    obtain ⟨hxall, hxs⟩ := hsort
    simp only [tbInsert]
    split
    · rename_i hlt
      rw [TBSorted, List.pairwise_cons]
      constructor
      · intro e he
        rcases List.mem_cons.mp he with rfl | he
        · exact hlt
        · exact hkLt_trans _ _ _ hlt (hxall e he)
      · rw [TBSorted] at *
        rw [List.pairwise_cons]
        exact ⟨hxall, hxs⟩
    · split
      · rename_i hne heq
        have hkeq : key = x.1 := by
          rwa [beq_iff_eq] at heq
        rw [TBSorted, List.pairwise_cons]
        refine ⟨fun e he => ?_, hxs⟩
        rw [hkeq]
        exact hxall e he
      · rename_i hnlt hneq
        have hne : key ≠ x.1 := by
          intro habs
          rw [habs] at hneq
          simp at hneq
        have hxk : hkLt x.1 key = true := by
          rcases hkLt_total x.1 key (by rw [hlen x (by simp)]) (fun h => hne h.symm) with h | h
          · exact h
          · rw [h] at hnlt
            simp at hnlt
        rw [TBSorted, List.pairwise_cons]
        constructor
        · intro e he
          rcases mem_tbInsert key val xs e he with rfl | he
          · exact hxk
          · exact hxall e he
        · exact ih hxs (fun e he => hlen e (by simp [he]))

lemma tbInsert_pairwise {α : Type}
    (S : ((Nat × TreeKey) × (Nat × α)) → ((Nat × TreeKey) × (Nat × α)) → Prop)
    (key : Nat × TreeKey) (val : Nat × α) :
    ∀ tb, tb.Pairwise S →
    (∀ e ∈ tb, S (key, val) e ∧ S e (key, val)) →
    (tbInsert key val tb).Pairwise S := by
  intro tb
  induction tb with
  | nil =>
    intro _ _
    exact List.pairwise_singleton _ _
  | cons x xs ih =>
    intro hp hall
    rw [List.pairwise_cons] at hp
    obtain ⟨hxall, hxs⟩ := hp
    simp only [tbInsert]
    split
    · rw [List.pairwise_cons]
      exact ⟨fun e he => (hall e he).1, by rw [List.pairwise_cons]; exact ⟨hxall, hxs⟩⟩
    · split
      · rw [List.pairwise_cons]
        exact ⟨fun e he => (hall e (by simp [he])).1, hxs⟩
      · rw [List.pairwise_cons]
        constructor
        · intro e he
          rcases mem_tbInsert key val xs e he with rfl | he
          · exact (hall x (by simp)).2
          · exact hxall e he
        · exact ih hxs (fun e he => hall e (by simp [he]))

lemma forall2_tbInsert {α β : Type}
    (R : ((Nat × TreeKey) × (Nat × α)) → ((Nat × TreeKey) × (Nat × β)) → Prop)
    (hR : ∀ x y, R x y → x.1 = y.1)
    (key : Nat × TreeKey) (valA : Nat × α) (valB : Nat × β)
    (hval : R (key, valA) (key, valB)) :
    ∀ tbA tbB, List.Forall₂ R tbA tbB →
    List.Forall₂ R (tbInsert key valA tbA) (tbInsert key valB tbB) := by
  intro tbA
  induction tbA with
  | nil =>
    intro tbB hrel
    cases hrel
    exact List.Forall₂.cons hval List.Forall₂.nil
  | cons x xs ih =>
    intro tbB hrel
    cases hrel with
    | cons hxy hxs =>
      rename_i y ys
      have hkey : x.1 = y.1 := hR x y hxy
      simp only [tbInsert, hkey]
      split
      · exact List.Forall₂.cons hval (List.Forall₂.cons hxy hxs)
      · split
        · exact List.Forall₂.cons hval hxs
        · exact List.Forall₂.cons hxy (ih ys hxs)

lemma forall2_mem_right {α β : Type} {R : α → β → Prop} :
    ∀ {l1 : List α} {l2 : List β}, List.Forall₂ R l1 l2 →
    ∀ b ∈ l2, ∃ a ∈ l1, R a b := by
  intro l1 l2 hrel
  induction hrel with
  | nil => intro b hb; simp at hb
  | cons hxy hxs ih =>
    intro b hb
    rcases List.mem_cons.mp hb with rfl | hb
    · exact ⟨_, by simp, hxy⟩
    · obtain ⟨a, ha, hab⟩ := ih b hb
      exact ⟨a, by simp [ha], hab⟩

/-- Size of a program's covered leaf range. -/
def progRangeSize (r : Option (Nat × Nat)) : Nat :=
  match r with
  | some (s, e) => e - s
  | none => 0

/-- Total number of leaves covered by the live work items. -/
def tbCover (tb : TBuf Prog) : Nat :=
  (tb.map (fun e => progRangeSize e.2.2.2)).sum

lemma tbCover_cons (e : (Nat × TreeKey) × (Nat × Prog)) (tb : TBuf Prog) :
    tbCover (e :: tb) = progRangeSize e.2.2.2 + tbCover tb := by
  simp [tbCover]

lemma tbCover_tbInsert_le (key : Nat × TreeKey) (val : Nat × Prog) :
    ∀ tb, tbCover (tbInsert key val tb) ≤ tbCover tb + progRangeSize val.2.2 := by
  intro tb
  induction tb with
  | nil => simp [tbInsert, tbCover]
  | cons x xs ih =>
    simp only [tbInsert]
    split
    · simp only [tbCover_cons]; omega
    · split
      · simp only [tbCover_cons]; omega
      · simp only [tbCover_cons]; omega

lemma tbCover_tbInsert_fresh (key : Nat × TreeKey) (val : Nat × Prog) :
    ∀ tb, (∀ e ∈ tb, e.1 ≠ key) →
    tbCover (tbInsert key val tb) = tbCover tb + progRangeSize val.2.2 := by
  intro tb
  induction tb with
  | nil => simp [tbInsert, tbCover]
  | cons x xs ih =>
    intro hfresh
    simp only [tbInsert]
    split
    · simp only [tbCover_cons]; omega
    · split
      · rename_i hne heq
        rw [beq_iff_eq] at heq
        exact absurd heq.symm (hfresh x (by simp))
      · rw [tbCover_cons, tbCover_cons, ih (fun e he => hfresh e (by simp [he]))]
        omega

/-! ### Composition lemmas for the VM -/

set_option maxHeartbeats 1000000 in
lemma vmExec_fuel_irrel (hashH : List Nat → List Nat) (N : Nat)
    (sv : List (TreeKey × List Nat)) :
    ∀ f1 f2 bytes σ li, bytes.length ≤ f1 → bytes.length ≤ f2 →
    vmExec hashH N sv f1 bytes σ li = vmExec hashH N sv f2 bytes σ li := by
  intro f1
  induction f1 with
  | zero =>
    intro f2 bytes σ li h1 h2
    cases bytes with
    | nil => cases f2 <;> rfl
    | cons c rest => simp at h1
  | succ f1 ih =>
    intro f2 bytes σ li h1 h2
    cases bytes with
    | nil => cases f2 <;> rfl
    | cons c rest =>
      cases f2 with
      | zero => simp at h2
      | succ f2 =>
        have hr1 : rest.length ≤ f1 := by simp at h1; omega
        have hr2 : rest.length ≤ f2 := by simp at h2; omega
        simp only [vmExec]
        repeat' split
        all_goals try rfl
        all_goals first
          | exact ih f2 rest _ _ hr1 hr2
          | exact ih f2 (rest.drop 40) _ _ (by rw [List.length_drop]; omega)
              (by rw [List.length_drop]; omega)
          | exact ih f2 (rest.drop 8) _ _ (by rw [List.length_drop]; omega)
              (by rw [List.length_drop]; omega)

set_option maxHeartbeats 2000000 in
/-- Sequential composition: a program that executes successfully continues
into whatever follows it, with the state it produced. -/
lemma vmExec_append (hashH : List Nat → List Nat) (N : Nat)
    (sv : List (TreeKey × List Nat)) :
    ∀ f p σ li σ2 li2 q F G,
    vmExec hashH N sv f p σ li = .ok (σ2, li2) →
    p.length ≤ f → (p ++ q).length ≤ F → q.length ≤ G →
    vmExec hashH N sv F (p ++ q) σ li = vmExec hashH N sv G q σ2 li2 := by
  intro f
  induction f with
  | zero =>
    intro p σ li σ2 li2 q F G hok hf hF hG
    cases p with
    | nil =>
      simp only [vmExec] at hok
      obtain ⟨rfl, rfl⟩ := Prod.mk.inj (Except.ok.inj hok)
      simp only [List.nil_append]
      exact vmExec_fuel_irrel hashH N sv F G q σ li (by simpa using hF) hG
    | cons c rest => simp at hf
  | succ f ih =>
    intro p σ li σ2 li2 q F G hok hf hF hG
    cases p with
    | nil =>
      simp only [vmExec] at hok
      obtain ⟨rfl, rfl⟩ := Prod.mk.inj (Except.ok.inj hok)
      simp only [List.nil_append]
      exact vmExec_fuel_irrel hashH N sv F G q σ li (by simpa using hF) hG
    | cons c rest =>
      have hrf : rest.length ≤ f := by simp at hf; omega
      cases F with
      | zero => simp at hF
      | succ F =>
      have hrF : (rest ++ q).length ≤ F := by simp at hF ⊢; omega
      simp only [List.cons_append]
      simp only [vmExec] at hok ⊢
      split at hok
      · -- opcode L
        rename_i hcode
        rw [if_pos hcode]
        split at hok
        · exact absurd hok (by simp)
        · rename_i hli
          rw [if_neg hli]
          exact ih rest _ _ _ _ q F G hok hrf hrF hG
      · rename_i hcode
        rw [if_neg hcode]
        split at hok
        · -- opcode P
          rename_i hcodeP
          rw [if_pos hcodeP]
          split at hok
          · exact absurd hok (by simp)
          · rename_i hstack
            rw [if_neg hstack]
            split at hok
            · exact absurd hok (by simp)
            · rename_i hlen40
              have hlen40' : 40 ≤ rest.length := by omega
              rw [if_neg (show ¬ ((rest ++ q).length < 40) by
                rw [List.length_append]; omega)]
              rw [List.take_append_of_le_length (by omega),
                List.drop_append_of_le_length (by omega : (8:Nat) ≤ rest.length),
                List.take_append_of_le_length (by rw [List.length_drop]; omega),
                List.drop_append_of_le_length (by omega : (40:Nat) ≤ rest.length)]
              split at hok
              · exact absurd hok (by simp)
              · rename_i kv stack2 key value
                split at hok
                · exact absurd hok (by simp)
                · rename_i hguard
                  rw [if_neg hguard]
                  exact ih (rest.drop 40) _ _ _ _ q F G hok
                    (by rw [List.length_drop]; omega)
                    (by rw [List.length_append, List.length_drop] at *; omega) hG
        · rename_i hcodeP
          rw [if_neg hcodeP]
          split at hok
          · -- opcode H
            rename_i hcodeH
            rw [if_pos hcodeH]
            split at hok
            · exact absurd hok (by simp)
            · rename_i hstack2
              rw [if_neg hstack2]
              split at hok
              · exact absurd hok (by simp)
              · rename_i hne
                have hrestne : rest ≠ [] := by
                  intro habs
                  subst habs
                  simp at hne
                rw [if_neg (show ¬ ((rest ++ q).isEmpty = true) by
                  cases rest with
                  | nil => exact absurd rfl hrestne
                  | cons a b => simp)]
                split at hok
                · exact absurd hok (by simp)
                · rename_i hlen8
                  have hlen8' : 8 ≤ rest.length := by omega
                  rw [if_neg (show ¬ ((rest ++ q).length < 8) by
                    rw [List.length_append]; omega)]
                  rw [List.take_append_of_le_length (by omega),
                    List.drop_append_of_le_length (by omega : (8:Nat) ≤ rest.length)]
                  split at hok
                  · rename_i keyB valueB keyA valueA stack2
                    split at hok
                    · exact absurd hok (by simp)
                    · rename_i hguard
                      rw [if_neg hguard]
                      split at hok <;> rename_i haset
                      · rw [if_pos haset]
                        split at hok
                        · exact absurd hok (by simp)
                        · rename_i hcheck
                          rw [if_neg hcheck]
                          exact ih (rest.drop 8) _ _ _ _ q F G hok
                            (by rw [List.length_drop]; omega)
                            (by rw [List.length_append, List.length_drop] at *; omega) hG
                      · rw [if_neg haset]
                        split at hok
                        · exact absurd hok (by simp)
                        · rename_i hcheck
                          rw [if_neg hcheck]
                          exact ih (rest.drop 8) _ _ _ _ q F G hok
                            (by rw [List.length_drop]; omega)
                            (by rw [List.length_append, List.length_drop] at *; omega) hG
                  · exact absurd hok (by simp)
          · rename_i hcodeH
            rw [if_neg hcodeH]
            exact absurd hok (by simp)

/-! ### Key and list lemmas for the compile/VM simulation -/

lemma copy_bits_from_self (k : TreeKey) (h : Nat)
    (hk : ∀ x ∈ k, x < 256)
    (hlow : ∀ i, i < h → i < 8 * k.length → get_bit k i = false) :
    copy_bits_from k h = k := by
  apply key_ext (by rw [length_copy_bits_from]) (bytes_lt_copy_bits_from _ hk) hk
  intro i hi
  rw [length_copy_bits_from] at hi
  rw [get_bit_copy_bits_from k h i hi]
  by_cases hhi : h ≤ i
  · simp [hhi]
  · rw [hlow i (by omega) hi]
    simp

lemma copy_bits_from_comp (k : TreeKey) (a b : Nat) (hk : ∀ x ∈ k, x < 256)
    (hab : a ≤ b) :
    copy_bits_from (copy_bits_from k a) b = copy_bits_from k b := by
  apply key_ext
    (by rw [length_copy_bits_from, length_copy_bits_from, length_copy_bits_from])
    (bytes_lt_copy_bits_from _ (bytes_lt_copy_bits_from _ hk))
    (bytes_lt_copy_bits_from _ hk)
  intro i hi
  rw [length_copy_bits_from, length_copy_bits_from] at hi
  rw [get_bit_copy_bits_from _ b i (by rw [length_copy_bits_from]; exact hi),
    get_bit_copy_bits_from k a i hi, get_bit_copy_bits_from k b i hi]
  by_cases hbi : b ≤ i
  · have hai : a ≤ i := by omega
    simp [hbi, hai]
  · simp [hbi]

lemma forall2_of_get {α β : Type} {R : α → β → Prop} :
    ∀ (l1 : List α) (l2 : List β), l1.length = l2.length →
    (∀ i (h1 : i < l1.length) (h2 : i < l2.length), R l1[i] l2[i]) →
    List.Forall₂ R l1 l2 := by
  intro l1
  induction l1 with
  | nil =>
    intro l2 hlen _
    cases l2 with
    | nil => exact List.Forall₂.nil
    | cons b t => simp at hlen
  | cons a t ih =>
    intro l2 hlen hget
    cases l2 with
    | nil => simp at hlen
    | cons b t2 =>
      refine List.Forall₂.cons (hget 0 (by simp) (by simp)) (ih t2 (by simpa using hlen) ?_)
      intro i h1 h2
      have := hget (i + 1) (by simpa using h1) (by simpa using h2)
      simpa using this

lemma forall2_mem_left {α β : Type} {R : α → β → Prop} :
    ∀ {l1 : List α} {l2 : List β}, List.Forall₂ R l1 l2 →
    ∀ a ∈ l1, ∃ b ∈ l2, R a b := by
  intro l1 l2 hrel
  induction hrel with
  | nil => intro a ha; simp at ha
  | cons hxy hxs ih =>
    intro a ha
    rcases List.mem_cons.mp ha with rfl | ha
    · exact ⟨_, by simp, hxy⟩
    · obtain ⟨b, hb, hab⟩ := ih a ha
      exact ⟨b, by simp [hb], hab⟩

lemma mem_insertSorted {α : Type} (le : α → α → Bool) (x : α) :
    ∀ (l : List α) (y : α), y ∈ insertSorted le x l → y = x ∨ y ∈ l := by
  intro l
  induction l with
  | nil =>
    intro y hy
    simp only [insertSorted, List.mem_singleton] at hy
    exact Or.inl hy
  | cons a t ih =>
    intro y hy
    simp only [insertSorted] at hy
    split at hy
    · rcases List.mem_cons.mp hy with rfl | hy
      · exact Or.inl rfl
      · exact Or.inr hy
    · rcases List.mem_cons.mp hy with rfl | hy
      · exact Or.inr (by simp)
      · rcases ih y hy with h | h
        · exact Or.inl h
        · exact Or.inr (by simp [h])

lemma mem_sortByKey {α : Type} : ∀ (l : List (TreeKey × α)) (y : TreeKey × α),
    y ∈ sortByKey l → y ∈ l := by
  intro l
  induction l with
  | nil => intro y hy; exact hy
  | cons a t ih =>
    intro y hy
    simp only [sortByKey, List.foldr_cons] at hy
    rcases mem_insertSorted keyLe a _ y hy with rfl | hy
    · simp
    · exact List.mem_cons_of_mem a (ih y (by simpa [sortByKey] using hy))

lemma length_insertSorted {α : Type} (le : α → α → Bool) (x : α) :
    ∀ l : List α, (insertSorted le x l).length = l.length + 1 := by
  intro l
  induction l with
  | nil => rfl
  | cons a t ih =>
    simp only [insertSorted]
    split
    · simp
    · simp [ih]

lemma length_sortByKey {α : Type} : ∀ l : List (TreeKey × α),
    (sortByKey l).length = l.length := by
  intro l
  induction l with
  | nil => rfl
  | cons a t ih =>
    simp only [sortByKey, List.foldr_cons] at *
    rw [length_insertSorted, ih]
    simp

lemma mem_lis_tbInsert {α : Type} (key : Nat × TreeKey) (val : Nat × α) (tb : TBuf α)
    (x : Nat) (hx : x ∈ (tbInsert key val tb).map (fun e => e.2.1)) :
    x = val.1 ∨ x ∈ tb.map (fun e => e.2.1) := by
  rcases List.mem_map.mp hx with ⟨e, he, rfl⟩
  rcases mem_tbInsert key val tb e he with rfl | he
  · exact Or.inl rfl
  · exact Or.inr (List.mem_map.mpr ⟨e, he, rfl⟩)

lemma nodup_lis_tbInsert {α : Type} (key : Nat × TreeKey) (val : Nat × α) :
    ∀ tb : TBuf α, (tb.map (fun e => e.2.1)).Nodup →
    val.1 ∉ tb.map (fun e => e.2.1) →
    ((tbInsert key val tb).map (fun e => e.2.1)).Nodup := by
  intro tb
  induction tb with
  | nil =>
    intro _ _
    simp [tbInsert]
  | cons e es ih =>
    intro hnd hli
    have hnd1 : e.2.1 ∉ es.map (fun e => e.2.1) :=
      (List.nodup_cons.mp (by simpa using hnd)).1
    have hnd2 : (es.map (fun e => e.2.1)).Nodup :=
      (List.nodup_cons.mp (by simpa using hnd)).2
    have hli1 : val.1 ≠ e.2.1 := by
      intro hc
      exact hli (by simp [hc])
    have hli2 : val.1 ∉ es.map (fun e => e.2.1) := by
      intro hc
      exact hli (by simp [hc])
    simp only [tbInsert]
    split
    · rw [List.map_cons, List.nodup_cons]
      exact ⟨hli, by simpa using hnd⟩
    · split
      · rw [List.map_cons, List.nodup_cons]
        exact ⟨hli2, hnd2⟩
      · rw [List.map_cons, List.nodup_cons]
        refine ⟨fun hmem => ?_, ih hnd2 hli2⟩
        rcases mem_lis_tbInsert key val es e.2.1 hmem with hc | hc
        · exact hli1 hc.symm
        · exact hnd1 hc

/-! ### Single-instruction evaluation lemmas for the VM -/

lemma length_be64 (h : Nat) : (be64 h).length = 8 := rfl

lemma vmExec_nil (hashH : List Nat → List Nat) (N : Nat)
    (sv : List (TreeKey × List Nat)) (g : Nat) (σ : List (TreeKey × List Nat)) (li : Nat) :
    vmExec hashH N sv g [] σ li = .ok (σ, li) := by
  cases g <;> rfl

lemma vmExec_leaf (hashH : List Nat → List Nat) (N : Nat)
    (sv : List (TreeKey × List Nat)) (g : Nat) (σ : List (TreeKey × List Nat)) (li : Nat)
    (hli : li < sv.length) :
    vmExec hashH N sv (g + 1) [0x4C] σ li =
      .ok (((sv.getD li ([], [])).1,
        hash_leaf hashH (sv.getD li ([], [])).1 (sv.getD li ([], [])).2) :: σ, li + 1) := by
  simp only [vmExec]
  rw [if_pos (beq_self_eq_true _), if_neg (by omega)]

lemma vmExec_pstep (hashH : List Nat → List Nat) (N : Nat)
    (sv : List (TreeKey × List Nat)) (g : Nat) (σ : List (TreeKey × List Nat))
    (li height2 : Nat) (kvm node pnode : List Nat)
    (h2 : height2 < 8 * N) (h64 : height2 < 2 ^ 64) (hd : pnode.length = 32) :
    vmExec hashH N sv (g + 1) (0x50 :: (be64 height2 ++ pnode)) ((kvm, node) :: σ) li =
      .ok ((parent_path kvm height2,
        if get_bit kvm height2 then merge hashH pnode node
        else merge hashH node pnode) :: σ, li) := by
  simp only [vmExec]
  rw [if_neg (by decide), if_pos (beq_self_eq_true _), if_neg (by simp),
    if_neg (by rw [List.length_append, length_be64, hd]; omega),
    take8_be64_append, fromBE8_be64 height2 h64, drop8_be64_append,
    List.take_of_length_le (by rw [hd]), if_neg (by omega),
    show (be64 height2 ++ pnode).drop 40 = [] from
      List.drop_eq_nil_of_le (by rw [List.length_append, length_be64, hd])]
  exact vmExec_nil hashH N sv g _ _

lemma vmExec_hstep (hashH : List Nat → List Nat) (N : Nat)
    (sv : List (TreeKey × List Nat)) (g : Nat) (σ : List (TreeKey × List Nat))
    (li h : Nat) (kvmA kvmB kt : TreeKey) (va vb : List Nat)
    (hh : h < 8 * N) (h64 : h < 2 ^ 64)
    (hlenA : kvmA.length = N) (hlenB : kvmB.length = N)
    (hktA : kt = copy_bits_from kvmA h)
    (hksib : set_bit kt h = copy_bits_from kvmB h)
    (haset : get_bit kvmA h = false) :
    vmExec hashH N sv (g + 1) (0x48 :: be64 h) ((kvmB, vb) :: (kvmA, va) :: σ) li =
      .ok ((kt, merge hashH va vb) :: σ, li) := by
  have hktlen : kt.length = N := by rw [hktA, length_copy_bits_from, hlenA]
  have hbset : get_bit kvmB h = true := by
    have h1 : get_bit (copy_bits_from kvmB h) h = get_bit kvmB h := by
      rw [get_bit_copy_bits_from _ _ _ (by rw [hlenB]; exact hh)]
      simp
    have h2 : get_bit (set_bit kt h) h = true := by
      rw [get_bit_set_bit kt h h (by rw [hktlen]; exact hh) (by rw [hktlen]; exact hh)]
      simp
    rw [hksib, h1] at h2
    exact h2
  simp only [vmExec]
  rw [if_neg (by decide), if_neg (by decide), if_pos (beq_self_eq_true _),
    if_neg (by simp), if_neg (by simp [be64]), if_neg (by rw [length_be64]; omega),
    List.take_of_length_le (by rw [length_be64]), fromBE8_be64 h h64, if_neg (by omega)]
  rw [haset, hbset]
  simp only [Bool.not_false, if_true, ← hktA, hksib, beq_self_eq_true, Bool.false_xor,
    Bool.and_true, Bool.true_and, Bool.not_true, Bool.false_eq_true, if_false, ite_false]
  rw [show (be64 h).drop 8 = [] from List.drop_eq_nil_of_le (by rw [length_be64])]
  exact vmExec_nil hashH N sv g _ _

/-! ### One-iteration unfolding lemmas for the `compile` walk -/

section WalkCompileLemmas

variable (N fuel height : Nat) (key : TreeKey) (leafIndex : Nat) (pg : Prog)
  (rest : TBuf Prog) (pf : List (List Nat × Nat)) (lp : List (List Nat))

lemma walkCompile_done (hdone : (pf.isEmpty && rest.isEmpty) = true) :
    walkCompile N (fuel + 1) (((height, key), (leafIndex, pg)) :: rest) pf lp = .ok pg := by
  simp only [walkCompile, hdone, if_true]

lemma walkCompile_top_ok (hpf : pf.isEmpty = true) (hrest : rest.isEmpty = false)
    (htop : height = 8 * N) :
    walkCompile N (fuel + 1) (((height, key), (leafIndex, pg)) :: rest) pf lp = .ok pg := by
  subst htop
  simp only [walkCompile, hpf, hrest, Bool.true_and, Bool.false_eq_true, if_false,
    beq_self_eq_true, if_true, Bool.not_true, Bool.true_eq_false, ite_false, ite_true]

lemma walkCompile_caseA (hs js : Nat) (ks : TreeKey) (sibPg : Prog) (rest2 : TBuf Prog)
    (hdone : (pf.isEmpty && (((hs, ks), (js, sibPg)) :: rest2 : TBuf Prog).isEmpty) = false)
    (hne : height ≠ 8 * N) (hlt : height < 8 * N)
    (hsk : (hs, ks) = (height, siblingKeyOf key height)) :
    walkCompile N (fuel + 1)
        (((height, key), (leafIndex, pg)) :: ((hs, ks), (js, sibPg)) :: rest2) pf lp =
      (match merge_program pg sibPg height with
        | .error e => .error e
        | .ok pp => walkCompile N fuel
            (tbInsert (height + 1, parent_path key height) (leafIndex, pp) rest2) pf
            (lp.set leafIndex ((lp.getD leafIndex []).tail))) := by
  have hbeq : (height == 8 * N) = false := beq_eq_false_iff_ne.mpr hne
  have hhead : ((((hs, ks), (js, sibPg)) :: rest2 : TBuf Prog).head?.map Prod.fst ==
      some (height, siblingKeyOf key height)) = true := by
    simp only [List.head?_cons, Option.map_some]
    rw [hsk]
    exact beq_self_eq_true _
  simp only [walkCompile, hdone, hbeq, Bool.false_eq_true, if_false,
    if_neg (by omega : ¬ 8 * N ≤ height), hhead, if_true]

lemma walkCompile_skip
    (hdone : (pf.isEmpty && rest.isEmpty) = false)
    (hne : height ≠ 8 * N) (hlt : height < 8 * N)
    (hsib : (rest.head?.map Prod.fst == some (height, siblingKeyOf key height)) = false)
    (hmh : (lp.getD leafIndex []).headD height ≠ height) :
    walkCompile N (fuel + 1) (((height, key), (leafIndex, pg)) :: rest) pf lp =
      walkCompile N fuel
        (tbInsert ((lp.getD leafIndex []).headD height,
            copy_bits_from key ((lp.getD leafIndex []).headD height))
          (leafIndex, pg) rest) pf lp := by
  have hbeq : (height == 8 * N) = false := beq_eq_false_iff_ne.mpr hne
  have hbne : (height != (lp.getD leafIndex []).headD height) = true :=
    bne_iff_ne.mpr (Ne.symm hmh)
  simp only [walkCompile, hdone, hbeq, Bool.false_eq_true, if_false,
    if_neg (by omega : ¬ 8 * N ≤ height), hsib, hbne, if_true]

lemma walkCompile_consume (pnode : List Nat) (ph : Nat) (pfRest : List (List Nat × Nat))
    (hdone : (((pnode, ph) :: pfRest : List (List Nat × Nat)).isEmpty && rest.isEmpty) = false)
    (hne : height ≠ 8 * N) (hlt : height < 8 * N)
    (hsib : (rest.head?.map Prod.fst == some (height, siblingKeyOf key height)) = false)
    (hmh : (lp.getD leafIndex []).headD height = height) :
    walkCompile N (fuel + 1) (((height, key), (leafIndex, pg)) :: rest)
        ((pnode, ph) :: pfRest) lp =
      walkCompile N fuel
        (tbInsert ((if height < ph then ph else height) + 1,
            parent_path key (if height < ph then ph else height))
          (leafIndex, proof_program pg pnode (if height < ph then ph else height)) rest)
        pfRest (lp.set leafIndex ((lp.getD leafIndex []).tail)) := by
  have hbeq : (height == 8 * N) = false := beq_eq_false_iff_ne.mpr hne
  have hbne : (height != (lp.getD leafIndex []).headD height) = false := by
    rw [hmh]; exact bne_self_eq_false _
  simp only [walkCompile, hdone, hbeq, Bool.false_eq_true, if_false,
    if_neg (by omega : ¬ 8 * N ≤ height), hsib, hbne, ite_false]

end WalkCompileLemmas

/-! ### The simulation invariant between the two walks -/

/-- Pairing invariant between a `compute_root` work item `eR` and the
`compile` work item `eC` occupying the same buffer slot: equal `(height, key)`
keys and leaf indices; the compiled fragment carries a concrete leaf range
`[s, e)` and executes (from leaf cursor `s`, on any stack and sufficient
fuel) to push exactly one entry `(kvm, node)` holding `eR`'s digest, where
the VM-side key `kvm` determines the buffer key as `copy_bits_from kvm
height`, and either agrees with it exactly or the entry is parked at the
next pending height of `leaves_path[leaf_index]` (the state right after a
zero-skip). -/
def ESpec (hashH : List Nat → List Nat) (N : Nat) (sv : List (TreeKey × List Nat))
    (lp : List (List Nat))
    (eR : (Nat × TreeKey) × (Nat × List Nat)) (eC : (Nat × TreeKey) × (Nat × Prog)) : Prop :=
  eC.1 = eR.1 ∧ eC.2.1 = eR.2.1 ∧
  eR.1.2.length = N ∧ (∀ x ∈ eR.1.2, x < 256) ∧
  ∃ s e kvm,
    eC.2.2.2 = some (s, e) ∧
    kvm.length = N ∧ (∀ x ∈ kvm, x < 256) ∧
    eR.1.2 = copy_bits_from kvm eR.1.1 ∧
    (kvm = eR.1.2 ∨ (lp.getD eR.2.1 []).headD eR.1.1 = eR.1.1) ∧
    (∀ σ G, eC.2.2.1.length ≤ G →
      vmExec hashH N sv G eC.2.2.1 σ s = .ok ((kvm, eR.2.2) :: σ, e))

lemma espec_set_ne (hashH : List Nat → List Nat) (N : Nat)
    (sv : List (TreeKey × List Nat)) (lp : List (List Nat)) (li : Nat) (v : List Nat)
    (eR : (Nat × TreeKey) × (Nat × List Nat)) (eC : (Nat × TreeKey) × (Nat × Prog))
    (h : ESpec hashH N sv lp eR eC) (hne : eR.2.1 ≠ li) :
    ESpec hashH N sv (lp.set li v) eR eC := by
  obtain ⟨h1, h2, h3, h4, s, e, kvm, h5, h6, h7, h8, h9, h10⟩ := h
  refine ⟨h1, h2, h3, h4, s, e, kvm, h5, h6, h7, h8, ?_, h10⟩
  rcases h9 with h9 | h9
  · exact Or.inl h9
  · right
    rw [List.getD_eq_getElem?_getD, List.getElem?_set_ne (Ne.symm hne),
      ← List.getD_eq_getElem?_getD]
    exact h9

lemma forall2_espec_set (hashH : List Nat → List Nat) (N : Nat)
    (sv : List (TreeKey × List Nat)) (lp : List (List Nat)) (li : Nat) (v : List Nat) :
    ∀ {tbR : TBuf (List Nat)} {tbC : TBuf Prog},
    List.Forall₂ (ESpec hashH N sv lp) tbR tbC →
    (∀ e ∈ tbR, e.2.1 ≠ li) →
    List.Forall₂ (ESpec hashH N sv (lp.set li v)) tbR tbC := by
  intro tbR tbC h
  induction h with
  | nil => intro _; exact List.Forall₂.nil
  | cons hxy hxs ih =>
    intro hne
    exact List.Forall₂.cons (espec_set_ne _ _ _ _ _ _ _ _ hxy (hne _ (by simp)))
      (ih fun e he => hne e (by simp [he]))

lemma forall2_foldl_tbInsert (hashH : List Nat → List Nat) (N : Nat)
    (sv : List (TreeKey × List Nat)) (lp : List (List Nat)) :
    ∀ {l1 : List ((Nat × TreeKey) × (Nat × List Nat))}
      {l2 : List ((Nat × TreeKey) × (Nat × Prog))},
    List.Forall₂ (ESpec hashH N sv lp) l1 l2 →
    ∀ (acc1 : TBuf (List Nat)) (acc2 : TBuf Prog),
    List.Forall₂ (ESpec hashH N sv lp) acc1 acc2 →
    List.Forall₂ (ESpec hashH N sv lp)
      (l1.foldl (fun tb e => tbInsert e.1 e.2 tb) acc1)
      (l2.foldl (fun tb e => tbInsert e.1 e.2 tb) acc2) := by
  intro l1 l2 h
  induction h with
  | nil => intro acc1 acc2 hacc; exact hacc
  | cons hxy hxs ih =>
    intro acc1 acc2 hacc
    rename_i x y _ _
    obtain ⟨xk, xv⟩ := x
    obtain ⟨yk, yv⟩ := y
    have hkey : yk = xk := hxy.1
    subst hkey
    simp only [List.foldl_cons]
    exact ih _ _ (forall2_tbInsert _ (fun a b hab => hab.1.symm) yk xv yv hxy acc1 acc2 hacc)

lemma sorted_foldl_tbInsert {α : Type} (Nn : Nat) :
    ∀ (l : List ((Nat × TreeKey) × (Nat × α))) (acc : TBuf α),
    (∀ e ∈ l, e.1.2.length = Nn) → (∀ e ∈ acc, e.1.2.length = Nn) →
    TBSorted acc →
    TBSorted (l.foldl (fun tb e => tbInsert e.1 e.2 tb) acc) ∧
    (∀ e ∈ l.foldl (fun tb e => tbInsert e.1 e.2 tb) acc, e.1.2.length = Nn) := by
  intro l
  induction l with
  | nil => intro acc _ hacc hs; exact ⟨hs, hacc⟩
  | cons x xs ih =>
    intro acc hl hacc hs
    simp only [List.foldl_cons]
    apply ih
    · exact fun e he => hl e (by simp [he])
    · intro e he
      rcases mem_tbInsert x.1 x.2 acc e he with rfl | he
      · exact hl x (by simp)
      · exact hacc e he
    · exact tbInsert_sorted x.1 x.2 acc hs
        (fun e he => by rw [hacc e he, hl x (by simp)])

lemma nodup_foldl_tbInsert {α : Type} :
    ∀ (l : List ((Nat × TreeKey) × (Nat × α))) (acc : TBuf α),
    (l.map (fun e => e.2.1) ++ acc.map (fun e => e.2.1)).Nodup →
    ((l.foldl (fun tb e => tbInsert e.1 e.2 tb) acc).map (fun e => e.2.1)).Nodup ∧
    (∀ x ∈ (l.foldl (fun tb e => tbInsert e.1 e.2 tb) acc).map (fun e => e.2.1),
      x ∈ l.map (fun e => e.2.1) ∨ x ∈ acc.map (fun e => e.2.1)) := by
  intro l
  induction l with
  | nil =>
    intro acc h
    exact ⟨by simpa using h, fun x hx => Or.inr hx⟩
  | cons e es ih =>
    intro acc h
    simp only [List.map_cons, List.cons_append, List.nodup_cons] at h
    obtain ⟨hni, hnd⟩ := h
    rw [List.nodup_append] at hnd
    obtain ⟨hnd1, hnd2, hdisj⟩ := hnd
    have hni1 : e.2.1 ∉ es.map (fun e => e.2.1) := fun hc => hni (by simp [hc])
    have hni2 : e.2.1 ∉ acc.map (fun e => e.2.1) := fun hc => hni (by simp [hc])
    simp only [List.foldl_cons]
    have hpre : (es.map (fun e => e.2.1) ++
        (tbInsert e.1 e.2 acc).map (fun e => e.2.1)).Nodup := by
      rw [List.nodup_append]
      refine ⟨hnd1, nodup_lis_tbInsert e.1 e.2 acc hnd2 hni2, ?_⟩
      intro x hx hx2
      rcases mem_lis_tbInsert e.1 e.2 acc x hx2 with rfl | hc
      · exact hni1 hx
      · exact hdisj hx hc
    obtain ⟨hout1, hout2⟩ := ih (tbInsert e.1 e.2 acc) hpre
    refine ⟨hout1, fun x hx => ?_⟩
    rcases hout2 x hx with hc | hc
    · exact Or.inl (by simp [hc])
    · rcases mem_lis_tbInsert e.1 e.2 acc x hc with rfl | hc2
      · exact Or.inl (by simp)
      · exact Or.inr hc2

set_option maxHeartbeats 2000000 in
/-- Lockstep simulation of the `compute_root` walk by the `compile` walk:
when both walks succeed from `ESpec`-paired buffers (with the digest walk's
buffer sorted and the live leaf indices distinct), the compiled program that
`compile` returns evaluates, from its recorded range start, to push exactly
the root that `compute_root` returns. -/
lemma walk_sim (hashH : List Nat → List Nat) (N : Nat) (sv : List (TreeKey × List Nat))
    (hN : 8 * N < 2 ^ 64) :
    ∀ (fuel : Nat) (tbR : TBuf (List Nat)) (tbC : TBuf Prog)
      (pf : List (List Nat × Nat)) (lp : List (List Nat)) (root : List Nat) (prog : Prog),
    List.Forall₂ (ESpec hashH N sv lp) tbR tbC →
    TBSorted tbR →
    (tbR.map (fun e => e.2.1)).Nodup →
    (∀ d ∈ pf, d.1.length = 32) →
    walkRoot hashH N fuel tbR pf lp = .ok root →
    walkCompile N fuel tbC pf lp = .ok prog →
    ∃ s e kvm, prog.2 = some (s, e) ∧
      ∀ σ G, prog.1.length ≤ G →
        vmExec hashH N sv G prog.1 σ s = .ok ((kvm, root) :: σ, e) := by
  intro fuel
  induction fuel with
  | zero =>
    intro tbR tbC pf lp root prog _ _ _ _ hR _
    exact absurd hR (by simp [walkRoot])
  | succ fuel ih =>
    intro tbR tbC pf lp root prog hf2 hsort hnd hdig hR hC
    cases hf2 with
    | nil => exact absurd hR (by simp [walkRoot])
    | cons hhead htail =>
      rename_i eR eC restR restC
      obtain ⟨⟨hr, ktr⟩, lir, node⟩ := eR
      obtain ⟨⟨h, kt⟩, li, pg⟩ := eC
      obtain ⟨hkeq, hlieq, hklen, hkbytes, s0, e0, kvm0, hrg0, hkvlen0, hkvb0, heq0,
        hdisj0, hden0⟩ := hhead
      dsimp only at hkeq hlieq hklen hkbytes hrg0 heq0 hdisj0 hden0
      obtain ⟨rfl, rfl⟩ := Prod.mk.inj hkeq
      subst hlieq
      have hsortR : TBSorted restR := (List.pairwise_cons.mp hsort).2
      have hlenN : ∀ e ∈ restR, e.1.2.length = N := by
        intro e he
        obtain ⟨b, _, hb⟩ := forall2_mem_left htail e he
        exact hb.2.2.1
      have hndcons := hnd
      simp only [List.map_cons, List.nodup_cons] at hndcons
      have hliR : li ∉ restR.map (fun e => e.2.1) := hndcons.1
      have hndR : (restR.map (fun e => e.2.1)).Nodup := hndcons.2
      have hline : ∀ e ∈ restR, e.2.1 ≠ li := by
        intro e he hc
        exact hliR (List.mem_map.mpr ⟨e, he, hc⟩)
      by_cases hdone : (pf.isEmpty && restR.isEmpty) = true
      · have hdoneC : (pf.isEmpty && restC.isEmpty) = true := by
          rwa [show restC.isEmpty = restR.isEmpty by cases htail <;> rfl]
        rw [walkRoot_done hashH N fuel h kt li node restR pf lp hdone] at hR
        rw [walkCompile_done N fuel h kt li pg restC pf lp hdoneC] at hC
        obtain rfl := Except.ok.inj hR
        obtain rfl := Except.ok.inj hC
        exact ⟨s0, e0, kvm0, hrg0, hden0⟩
      · by_cases htop : h = 8 * N
        · by_cases hpf : pf.isEmpty = true
          · have hrest : restR.isEmpty = false := by
              cases hr2 : restR.isEmpty
              · rfl
              · exfalso
                rw [hpf, hr2] at hdone
                simp at hdone
            have hrestC : restC.isEmpty = false := by
              rwa [show restC.isEmpty = restR.isEmpty by cases htail <;> rfl]
            rw [walkRoot_top_ok hashH N fuel h kt li node restR pf lp hpf hrest htop] at hR
            rw [walkCompile_top_ok N fuel h kt li pg restC pf lp hpf hrestC htop] at hC
            obtain rfl := Except.ok.inj hR
            obtain rfl := Except.ok.inj hC
            exact ⟨s0, e0, kvm0, hrg0, hden0⟩
          · have hpf' : pf.isEmpty = false := by
              cases h' : pf.isEmpty
              · rfl
              · exact absurd h' hpf
            rw [walkRoot_top_err hashH N fuel h kt li node restR pf lp hpf' htop] at hR
            exact absurd hR (by simp)
        · by_cases hge : 8 * N ≤ h
          · have hdoneF : (pf.isEmpty && restR.isEmpty) = false := by
              cases h' : (pf.isEmpty && restR.isEmpty)
              · rfl
              · exact absurd h' hdone
            rw [walkRoot_panic_height hashH N fuel h kt li node restR pf lp hdoneF htop hge]
              at hR
            exact absurd hR (by simp)
          · have hlt : h < 8 * N := by omega
            have hdoneF : (pf.isEmpty && restR.isEmpty) = false := by
              cases h' : (pf.isEmpty && restR.isEmpty)
              · rfl
              · exact absurd h' hdone
            have hdoneFC : (pf.isEmpty && restC.isEmpty) = false := by
              rwa [show restC.isEmpty = restR.isEmpty by cases htail <;> rfl]
            have hktlow : ∀ i, i < h → i < 8 * kt.length → get_bit kt i = false := by
              intro i hih hi8
              rw [hklen] at hi8
              rw [heq0, get_bit_copy_bits_from _ _ _ (by rw [hkvlen0]; exact hi8)]
              simp [show ¬ (h ≤ i) by omega]
            by_cases hsib : (restR.head?.map Prod.fst ==
                some (h, siblingKeyOf kt h)) = true
            · -- case A: merge with the sibling at the buffer head
              cases htail with
              | nil => simp at hsib
              | cons hhead2 htail2 =>
                rename_i eR2 eC2 restR' restC'
                obtain ⟨⟨hr2, ktr2⟩, lir2, sib⟩ := eR2
                obtain ⟨⟨h2, k2⟩, li2, pg2⟩ := eC2
                obtain ⟨hkeq2, hlieq2, hklen2, hkbytes2, s2, e2, kvm2, hrg2, hkvlen2,
                  hkvb2, heq2, hdisj2, hden2⟩ := hhead2
                dsimp only at hkeq2 hlieq2 hklen2 hkbytes2 hrg2 heq2 hdisj2 hden2
                obtain ⟨rfl, rfl⟩ := Prod.mk.inj hkeq2
                subst hlieq2
                simp only [List.head?_cons, Option.map_some', beq_iff_eq] at hsib
                obtain ⟨rfl, rfl⟩ := Prod.mk.inj (Option.some.inj hsib).symm
                have haset0 : get_bit kt h = false := by
                  by_contra hset
                  rw [Bool.not_eq_false] at hset
                  have hsibdef : siblingKeyOf kt h = parent_path kt h := by
                    unfold siblingKeyOf
                    simp only [hset, Bool.not_true, Bool.false_eq_true, if_false]
                  have hpair := (List.pairwise_cons.mp hsort).1 _ (List.mem_cons_self _ _)
                  rw [hkLt_same_height] at hpair
                  have hlt2 : listLtB (siblingKeyOf kt h) kt = true := by
                    rw [hsibdef]
                    apply listLtB_of_bits (parent_path kt h) kt (by rw [length_parent_path])
                      (bytes_lt_parent_path _ hkbytes) hkbytes h
                      (by rw [length_parent_path, hklen]; exact hlt)
                    · rw [get_bit_parent_path kt h h (by rw [hklen]; exact hlt)]
                      simp
                    · exact hset
                    · intro j hj hj8
                      rw [length_parent_path] at hj8
                      rw [get_bit_parent_path kt h j hj8]
                      simp [show h + 1 ≤ j by omega]
                  have hfa := listLtB_asymm _ _ hlt2
                  rw [hfa] at hpair
                  exact absurd hpair (by simp)
                have haset0' : get_bit kvm0 h = false := by
                  have htmp := haset0
                  rw [heq0, get_bit_copy_bits_from _ _ _ (by rw [hkvlen0]; exact hlt)]
                    at htmp
                  simpa using htmp
                have hptkt : parent_path kt h = kt := by
                  show copy_bits_from kt (h + 1) = kt
                  apply copy_bits_from_self kt (h + 1) hkbytes
                  intro i hih hi8
                  rcases Nat.lt_or_ge i h with hlo | hhi
                  · exact hktlow i hlo hi8
                  · have hieq : i = h := by omega
                    subst hieq
                    exact haset0
                have hsibeq2 : siblingKeyOf kt h = set_bit kt h := by
                  unfold siblingKeyOf
                  simp only [haset0, Bool.not_false, if_true, hptkt]
                have hksb : set_bit kt h = copy_bits_from kvm2 h := by
                  rw [← hsibeq2]
                  exact heq2
                have hrt : rootTail hashH N h kt li node sib h lp =
                    .ok (((h + 1, parent_path kt h), (li, merge hashH node sib)),
                      lp.set li ((lp.getD li []).tail)) := by
                  have e1 : (if h < h then h else h) = h := if_neg (lt_irrefl h)
                  simp only [rootTail, e1]
                  rw [if_neg (show ¬ 8 * N ≤ h by omega), haset0]
                  simp only [Bool.false_eq_true, if_false]
                rw [walkRoot_caseA hashH N fuel h kt li node pf lp h li2
                  (siblingKeyOf kt h) sib restR' hdoneF htop hlt rfl, hrt] at hR
                replace hR : walkRoot hashH N fuel
                    (tbInsert (h + 1, parent_path kt h) (li, merge hashH node sib) restR')
                    pf (lp.set li ((lp.getD li []).tail)) = .ok root := hR
                rw [walkCompile_caseA N fuel h kt li pg pf lp h li2
                  (siblingKeyOf kt h) pg2 restC' hdoneFC htop hlt rfl] at hC
                have hmp : merge_program pg pg2 h =
                    (if e0 == s2 then
                      .ok (pg.1 ++ pg2.1 ++ 0x48 :: be64 h, some (s0, e2))
                     else .error .nonMergableRange) := by
                  unfold merge_program
                  rw [hrg0, hrg2]
                rw [hmp] at hC
                by_cases hadj : (e0 == s2) = true
                · rw [if_pos hadj] at hC
                  have hadj' : e0 = s2 := beq_iff_eq.mp hadj
                  replace hC : walkCompile N fuel
                      (tbInsert (h + 1, parent_path kt h)
                        (li, (pg.1 ++ pg2.1 ++ 0x48 :: be64 h, some (s0, e2))) restC') pf
                      (lp.set li ((lp.getD li []).tail)) = .ok prog := hC
                  have hnewpair : ESpec hashH N sv (lp.set li ((lp.getD li []).tail))
                      ((h + 1, parent_path kt h), (li, merge hashH node sib))
                      ((h + 1, parent_path kt h),
                        (li, (pg.1 ++ pg2.1 ++ 0x48 :: be64 h, some (s0, e2)))) := by
                    refine ⟨rfl, rfl, by dsimp only; rw [length_parent_path, hklen],
                      bytes_lt_parent_path _ hkbytes, s0, e2, kt, rfl,
                      hklen, hkbytes, rfl, Or.inl hptkt.symm, ?_⟩
                    intro σ G hG
                    dsimp only at hG ⊢
                    rw [List.append_assoc] at hG ⊢
                    rw [vmExec_append hashH N sv pg.1.length pg.1 σ s0
                      ((kvm0, node) :: σ) e0 (pg2.1 ++ 0x48 :: be64 h) G
                      (pg2.1 ++ 0x48 :: be64 h).length (hden0 σ pg.1.length le_rfl)
                      le_rfl hG le_rfl, hadj',
                      vmExec_append hashH N sv pg2.1.length pg2.1 ((kvm0, node) :: σ) s2
                      ((kvm2, sib) :: (kvm0, node) :: σ) e2 (0x48 :: be64 h)
                      (pg2.1 ++ 0x48 :: be64 h).length (0x48 :: be64 h).length
                      (hden2 ((kvm0, node) :: σ) pg2.1.length le_rfl) le_rfl le_rfl le_rfl]
                    exact vmExec_hstep hashH N sv 8 σ e2 h kvm0 kvm2 kt node sib hlt
                      (by omega) hkvlen0 hkvlen2 heq0 hksb haset0'
                  have hsort2' : TBSorted restR' := (List.pairwise_cons.mp hsortR).2
                  have hlenN' : ∀ e ∈ restR', e.1.2.length = N := by
                    intro e he
                    obtain ⟨b, _, hb⟩ := forall2_mem_left htail2 e he
                    exact hb.2.2.1
                  have hndR2 : (restR'.map (fun e => e.2.1)).Nodup :=
                    (List.nodup_cons.mp (by simpa using hndR)).2
                  have hliR2 : li ∉ restR'.map (fun e => e.2.1) := by
                    intro hc
                    exact hliR (by simp [hc])
                  have hline2 : ∀ e ∈ restR', e.2.1 ≠ li := by
                    intro e he hc
                    exact hliR2 (List.mem_map.mpr ⟨e, he, hc⟩)
                  exact ih _ _ pf (lp.set li ((lp.getD li []).tail)) root prog
                    (forall2_tbInsert _ (fun a b hab => hab.1.symm) _ _ _ hnewpair _ _
                      (forall2_espec_set hashH N sv lp li _ htail2 hline2))
                    (tbInsert_sorted _ _ restR' hsort2'
                      (fun e he => by rw [hlenN' e he, length_parent_path, hklen]))
                    (nodup_lis_tbInsert _ _ restR' hndR2 hliR2)
                    hdig hR hC
                · rw [if_neg (by simpa using hadj)] at hC
                  exact absurd hC (by simp)
            · -- the sibling is not at the buffer head
              have hsibF : (restR.head?.map Prod.fst ==
                  some (h, siblingKeyOf kt h)) = false := by
                cases h' : (restR.head?.map Prod.fst == some (h, siblingKeyOf kt h))
                · rfl
                · exact absurd h' hsib
              have hsibC : (restC.head?.map Prod.fst ==
                  some (h, siblingKeyOf kt h)) = false := by
                rwa [show restC.head?.map Prod.fst = restR.head?.map Prod.fst by
                  cases htail with
                  | nil => rfl
                  | cons hxy _ => simp [hxy.1]]
              by_cases hmh : (lp.getD li []).headD h = h
              · -- consume a proof entry
                cases pf with
                | nil =>
                  rw [walkRoot_sibMiss_panic hashH N fuel h kt li node restR lp
                    hdoneF htop hlt hsibF hmh] at hR
                  exact absurd hR (by simp)
                | cons pfh pfRest =>
                  obtain ⟨pnode, ph⟩ := pfh
                  have hdnode : pnode.length = 32 := hdig (pnode, ph) (by simp)
                  have hm_ge : h ≤ (if h < ph then ph else h) := by split <;> omega
                  rw [walkRoot_sibMiss_consume hashH N fuel h kt li node restR lp
                    pnode ph pfRest (by simp) htop hlt hsibF hmh] at hR
                  have hrt : rootTail hashH N h kt li node pnode ph lp =
                      (if 8 * N ≤ (if h < ph then ph else h) then
                        .error (.panicked "index out of range")
                       else .ok ((((if h < ph then ph else h) + 1,
                           parent_path kt (if h < ph then ph else h)),
                         (li, if get_bit kt (if h < ph then ph else h) then
                             merge hashH pnode node
                           else merge hashH node pnode)),
                         lp.set li ((lp.getD li []).tail))) := by
                    simp only [rootTail]
                  rw [hrt] at hR
                  by_cases hg2 : 8 * N ≤ (if h < ph then ph else h)
                  · rw [if_pos hg2] at hR
                    exact absurd hR (by simp)
                  · rw [if_neg hg2] at hR
                    have h2lt : (if h < ph then ph else h) < 8 * N := by omega
                    replace hR : walkRoot hashH N fuel
                        (tbInsert ((if h < ph then ph else h) + 1,
                            parent_path kt (if h < ph then ph else h))
                          (li, if get_bit kt (if h < ph then ph else h) then
                              merge hashH pnode node
                            else merge hashH node pnode) restR)
                        pfRest (lp.set li ((lp.getD li []).tail)) = .ok root := hR
                    rw [walkCompile_consume N fuel h kt li pg restC lp pnode ph pfRest
                      (by simp) htop hlt hsibC hmh] at hC
                    have hagree : get_bit kvm0 (if h < ph then ph else h) =
                        get_bit kt (if h < ph then ph else h) := by
                      rw [heq0, get_bit_copy_bits_from _ _ _
                        (by rw [hkvlen0]; exact h2lt)]
                      simp [hm_ge]
                    have hpp : parent_path kvm0 (if h < ph then ph else h) =
                        parent_path kt (if h < ph then ph else h) := by
                      apply key_ext
                        (by rw [length_parent_path, length_parent_path, hkvlen0, hklen])
                        (bytes_lt_parent_path _ hkvb0) (bytes_lt_parent_path _ hkbytes)
                      intro i hi
                      rw [length_parent_path, hkvlen0] at hi
                      rw [get_bit_parent_path _ _ _ (by rw [hkvlen0]; exact hi),
                        get_bit_parent_path _ _ _ (by rw [hklen]; exact hi)]
                      by_cases hgei : (if h < ph then ph else h) + 1 ≤ i
                      · have hbits : get_bit kt i = get_bit kvm0 i := by
                          rw [heq0, get_bit_copy_bits_from _ _ _
                            (by rw [hkvlen0]; exact hi)]
                          simp [show h ≤ i by omega]
                        rw [hbits]
                      · simp [hgei]
                    have heqn : parent_path kt (if h < ph then ph else h) =
                        copy_bits_from (parent_path kt (if h < ph then ph else h))
                          ((if h < ph then ph else h) + 1) := by
                      refine (copy_bits_from_self _ _
                        (bytes_lt_parent_path _ hkbytes) ?_).symm
                      intro i hih hi8
                      rw [length_parent_path, hklen] at hi8
                      rw [get_bit_parent_path kt _ i (by rw [hklen]; exact hi8)]
                      simp [show ¬ ((if h < ph then ph else h) + 1 ≤ i) by omega]
                    have hnewpair : ESpec hashH N sv (lp.set li ((lp.getD li []).tail))
                        (((if h < ph then ph else h) + 1,
                            parent_path kt (if h < ph then ph else h)),
                          (li, if get_bit kt (if h < ph then ph else h) then
                              merge hashH pnode node
                            else merge hashH node pnode))
                        (((if h < ph then ph else h) + 1,
                            parent_path kt (if h < ph then ph else h)),
                          (li, proof_program pg pnode (if h < ph then ph else h))) := by
                      refine ⟨rfl, rfl, by dsimp only; rw [length_parent_path, hklen],
                        bytes_lt_parent_path _ hkbytes, s0, e0,
                        parent_path kt (if h < ph then ph else h), hrg0,
                        by rw [length_parent_path, hklen],
                        bytes_lt_parent_path _ hkbytes, heqn, Or.inl rfl, ?_⟩
                      intro σ G hG
                      dsimp only at hG ⊢
                      rw [show (proof_program pg pnode (if h < ph then ph else h)).1 =
                          pg.1 ++ 0x50 :: (be64 (if h < ph then ph else h) ++ pnode)
                        from rfl] at hG ⊢
                      rw [vmExec_append hashH N sv pg.1.length pg.1 σ s0
                        ((kvm0, node) :: σ) e0
                        (0x50 :: (be64 (if h < ph then ph else h) ++ pnode)) G
                        (0x50 :: (be64 (if h < ph then ph else h) ++ pnode)).length
                        (hden0 σ pg.1.length le_rfl) le_rfl hG le_rfl]
                      have hstep := vmExec_pstep hashH N sv
                        (be64 (if h < ph then ph else h) ++ pnode).length σ e0
                        (if h < ph then ph else h) kvm0 node pnode h2lt (by omega) hdnode
                      rw [hpp, hagree] at hstep
                      exact hstep
                    exact ih _ _ pfRest (lp.set li ((lp.getD li []).tail)) root prog
                      (forall2_tbInsert _ (fun a b hab => hab.1.symm) _ _ _ hnewpair _ _
                        (forall2_espec_set hashH N sv lp li _ htail hline))
                      (tbInsert_sorted _ _ restR hsortR
                        (fun e he => by rw [hlenN e he, length_parent_path, hklen]))
                      (nodup_lis_tbInsert _ _ restR hndR hliR)
                      (fun d hd => hdig d (by simp [hd])) hR hC
              · -- skip to the pending merge height
                rw [walkRoot_sibMiss_skip hashH N fuel h kt li node restR pf lp
                  hdoneF htop hlt hsibF hmh] at hR
                rw [walkCompile_skip N fuel h kt li pg restC pf lp
                  hdoneFC htop hlt hsibC hmh] at hC
                rcases hdisj0 with hkveq | hcon
                · have hnewpair : ESpec hashH N sv lp
                      (((lp.getD li []).headD h,
                          copy_bits_from kt ((lp.getD li []).headD h)), (li, node))
                      (((lp.getD li []).headD h,
                          copy_bits_from kt ((lp.getD li []).headD h)), (li, pg)) := by
                    refine ⟨rfl, rfl, by dsimp only; rw [length_copy_bits_from, hklen],
                      bytes_lt_copy_bits_from _ hkbytes, s0, e0, kvm0, hrg0,
                      hkvlen0, hkvb0, ?_, ?_, hden0⟩
                    · dsimp only
                      rw [hkveq]
                    · dsimp only
                      right
                      cases hlp : lp.getD li [] with
                      | nil => exact absurd (by rw [hlp]; rfl) hmh
                      | cons a t => rfl
                  exact ih _ _ pf lp root prog
                    (forall2_tbInsert _ (fun a b hab => hab.1.symm) _ _ _ hnewpair _ _
                      htail)
                    (tbInsert_sorted _ _ restR hsortR
                      (fun e he => by rw [hlenN e he, length_copy_bits_from, hklen]))
                    (nodup_lis_tbInsert _ _ restR hndR hliR)
                    hdig hR hC
                · exact absurd hcon hmh

/-- The initial buffers of the two walks — leaf hashes vs `leaf_program`s
over the same sorted key sequence — are `ESpec`-paired, sorted, and carry
pairwise distinct leaf indices. -/
lemma init_sim (hashH : List Nat → List Nat) (N : Nat) (sv : List (TreeKey × List Nat))
    (lp : List (List Nat))
    (hsv : ∀ kv ∈ sv, kv.1.length = N ∧ ∀ x ∈ kv.1, x < 256) :
    List.Forall₂ (ESpec hashH N sv lp)
      (buildTB (sv.enum.map fun ikv =>
        ((0, ikv.2.1), (ikv.1, hash_leaf hashH ikv.2.1 ikv.2.2))))
      (buildTB (sv.enum.map fun ikv => ((0, ikv.2.1), (ikv.1, leaf_program ikv.1)))) ∧
    TBSorted (buildTB (sv.enum.map fun ikv =>
      ((0, ikv.2.1), (ikv.1, hash_leaf hashH ikv.2.1 ikv.2.2)))) ∧
    ((buildTB (sv.enum.map fun ikv =>
      ((0, ikv.2.1), (ikv.1, hash_leaf hashH ikv.2.1 ikv.2.2)))).map
        (fun e => e.2.1)).Nodup := by
  have hF12 : List.Forall₂ (ESpec hashH N sv lp)
      (sv.enum.map fun ikv => ((0, ikv.2.1), (ikv.1, hash_leaf hashH ikv.2.1 ikv.2.2)))
      (sv.enum.map fun ikv => ((0, ikv.2.1), (ikv.1, leaf_program ikv.1))) := by
    apply forall2_of_get
    · simp
    · intro i h1 h2
      have hi : i < sv.length := by simpa using h1
      rw [List.getElem_map, List.getElem_map, List.getElem_enum]
      dsimp only
      have hkv := hsv sv[i] (List.getElem_mem hi)
      refine ⟨rfl, rfl, hkv.1, hkv.2, i, i + 1, sv[i].1, rfl, hkv.1, hkv.2,
        (copy_bits_from_self _ 0 hkv.2 (fun j hj _ => absurd hj (by omega))).symm,
        Or.inl rfl, ?_⟩
      intro σ G hG
      dsimp only [leaf_program] at hG ⊢
      cases G with
      | zero => simp at hG
      | succ G =>
        have hgd : sv.getD i ([], []) = sv[i] := by
          rw [List.getD_eq_getElem?_getD, List.getElem?_eq_getElem hi]
          rfl
        have hstep := vmExec_leaf hashH N sv G σ i hi
        rw [hgd] at hstep
        exact hstep
  have hl1len : ∀ e ∈ (sv.enum.map fun ikv =>
      ((0, ikv.2.1), (ikv.1, hash_leaf hashH ikv.2.1 ikv.2.2))), e.1.2.length = N := by
    intro e he
    obtain ⟨b, _, hb⟩ := forall2_mem_left hF12 e he
    exact hb.2.2.1
  have hlis : (sv.enum.map fun ikv =>
      ((0, ikv.2.1), (ikv.1, hash_leaf hashH ikv.2.1 ikv.2.2))).map (fun e => e.2.1) =
      List.range sv.length := by
    rw [List.map_map]
    have hcomp : ((fun e => e.2.1) ∘ (fun ikv : Nat × (TreeKey × List Nat) =>
        ((0, ikv.2.1), (ikv.1, hash_leaf hashH ikv.2.1 ikv.2.2)))) =
        (Prod.fst : Nat × (TreeKey × List Nat) → Nat) := rfl
    rw [hcomp]
    exact List.enum_map_fst sv
  exact ⟨forall2_foldl_tbInsert hashH N sv lp hF12 [] [] List.Forall₂.nil,
    (sorted_foldl_tbInsert N _ [] hl1len (by simp) List.Pairwise.nil).1,
    (nodup_foldl_tbInsert _ []
      (by simp only [List.map_nil, List.append_nil]
          rw [hlis]
          exact List.nodup_range sv.length)).1⟩

/-- C1: the original claim is refuted — a proof whose two leaves fall into
the same `(height, key)` slot after a zero-skip compiles successfully and
`compute_root` succeeds, yet the compiled program returns a DIFFERENT root:
the emitted program covers leaf range `1..2` while the VM starts its leaf
cursor at `0`, so it hashes the wrong leaf. -/
theorem compile_drops_leaf_root_mismatch :
    ∃ bytes r1 r2,
      compile 1 ⟨[[2], [2]], [(List.replicate 32 7, 2)]⟩
        [([0], List.replicate 32 5), ([2], List.replicate 32 9)] = .ok bytes ∧
      compute_root padHash 1 ⟨[[2], [2]], [(List.replicate 32 7, 2)]⟩
        [([0], List.replicate 32 5), ([2], List.replicate 32 9)] = .ok r1 ∧
      compiled_compute_root padHash 1 bytes
        [([0], List.replicate 32 5), ([2], List.replicate 32 9)] = .ok r2 ∧
      r1 ≠ r2 := by
  refine ⟨_, _, _, rfl, rfl, rfl, ?_⟩
  decide

set_option maxHeartbeats 1000000 in
/-- C1 (amended): the compiled stack program is a faithful linearization of
the structured priority-queue reconstruction PROVIDED the compiled program's
recorded leaf range is exactly `0..leaves.len()`: for byte-valued keys of
length `N` and 32-byte proof digests, if `compile` (over any values paired
with the same keys) succeeds with such a full-range program and
`compute_root(pairs)` succeeds with root `r`, then the compiled program's
`compute_root(pairs)` succeeds and returns the same `r`.  Without the
range premise the claim is false (`compile_drops_leaf_root_mismatch`):
colliding buffer slots can drop leaves from the program, shifting its leaf
window while the VM always starts at leaf `0`. -/
theorem compile_faithful_on_full_range (hashH : List Nat → List Nat) (N : Nat)
    (p : MerkleProof) (kvs pairs : List (TreeKey × List Nat)) (bytes : List Nat)
    (root : List Nat)
    (hkeys : kvs.map Prod.fst = pairs.map Prod.fst)
    (hklen : ∀ kv ∈ pairs, kv.1.length = N ∧ ∀ x ∈ kv.1, x < 256)
    (hdig : ∀ d ∈ p.proof, d.1.length = 32)
    (hN : 8 * N < 2 ^ 64)
    (hc : compileFull N p kvs = .ok (bytes, some (0, pairs.length)))
    (hr : compute_root hashH N p pairs = .ok root) :
    compiled_compute_root hashH N bytes pairs = .ok root := by
  have hlen12 : kvs.length = pairs.length := by
    have h2 := congrArg List.length hkeys
    simpa using h2
  have hempty : kvs.isEmpty = pairs.isEmpty := by
    cases kvs with
    | nil =>
      cases pairs with
      | nil => rfl
      | cons b t => simp at hkeys
    | cons a t =>
      cases pairs with
      | nil => simp at hkeys
      | cons b t2 => rfl
  have htb : ((sortByKey kvs).enum.map fun ikv =>
      ((0, ikv.2.1), (ikv.1, leaf_program ikv.1))) =
      ((sortByKey pairs).enum.map fun ikv =>
      ((0, ikv.2.1), (ikv.1, leaf_program ikv.1))) :=
    enumFrom_map_key_eq _ _ (map_fst_sortByKey kvs pairs hkeys) 0
  have hfull : compileFull N p kvs = compileFull N p pairs := by
    simp only [compileFull, hlen12, hempty, htb]
  rw [hfull] at hc
  have hpe : pairs.isEmpty = false := by
    cases hx : pairs.isEmpty
    · rfl
    · rw [compute_root, hx] at hr
      simp at hr
  have hlen3 : (pairs.length != p.leaves_path.length) = false := by
    cases hx : (pairs.length != p.leaves_path.length)
    · rfl
    · rw [compute_root, hpe, hx] at hr
      simp at hr
  simp only [compute_root, hpe, hlen3, Bool.false_eq_true, if_false] at hr
  simp only [compileFull, hpe, hlen3, Bool.false_eq_true, if_false] at hc
  obtain ⟨hF, hS, hD⟩ := init_sim hashH N (sortByKey pairs) p.leaves_path
    (fun kv hm => hklen kv (mem_sortByKey _ _ hm))
  rw [show (buildTB ((sortByKey pairs).enum.map fun ikv =>
      ((0, ikv.2.1), (ikv.1, leaf_program ikv.1)))).length =
    (buildTB ((sortByKey pairs).enum.map fun ikv =>
      ((0, ikv.2.1), (ikv.1, hash_leaf hashH ikv.2.1 ikv.2.2)))).length
    from (List.Forall₂.length_eq hF).symm] at hc
  obtain ⟨s, e, kvm, hse, hden⟩ := walk_sim hashH N (sortByKey pairs) hN
    (rootFuel (buildTB ((sortByKey pairs).enum.map fun ikv =>
      ((0, ikv.2.1), (ikv.1, hash_leaf hashH ikv.2.1 ikv.2.2)))).length
      p.proof.length p.leaves_path)
    _ _ p.proof p.leaves_path root (bytes, some (0, pairs.length))
    hF hS hD hdig hr hc
  dsimp only at hse hden
  obtain ⟨rfl, rfl⟩ := Prod.mk.inj (Option.some.inj hse)
  simp only [compiled_compute_root]
  rw [hden [] bytes.length le_rfl]

/-- Closed instance of the amended C1 at a one-leaf proof: the compiled
program `[0x4C]` with full range `0..1` reproduces `compute_root`'s root. -/
theorem compile_faithful_on_full_range_witness :
    compiled_compute_root padHash 1 [0x4C] [([5], List.replicate 32 9)] =
      .ok (hash_leaf padHash [5] (List.replicate 32 9)) :=
  compile_faithful_on_full_range padHash 1 ⟨[[]], []⟩ [([5], List.replicate 32 9)]
    [([5], List.replicate 32 9)] [0x4C] (hash_leaf padHash [5] (List.replicate 32 9))
    rfl (by decide) (by simp) (by decide) rfl rfl

end SMT
